import Mathlib

/-! Partition manager junior: extraction and reintegration of partitions.

A shallow embedding of `core/algorithms/partitioning/partition_manager_junior.hpp`.
The class is a template over a mockturtle network; the network primitives it
calls are modelled below, the two methods `partition` and `integrate` are
translated statement by statement.
-/

namespace Oracle

/-! ## Network primitives -/

/-- Modelled from the spec: the network type is a template parameter and is not
part of the source file. A signal is a (node, polarity) pair. -/
structure Signal where
  index : Nat
  complement : Bool
deriving DecidableEq, Repr

/-- Modelled from the spec: signals are ordered and compared on one data word,
the node index followed by the polarity bit. -/
def Signal.data (s : Signal) : Nat :=
  2 * s.index + (if s.complement then 1 else 0)

/-- Modelled from the spec: a node is a constant, a primary input or a gate;
a gate carries a function code and its ordered fan-in signals. -/
inductive Node where
  | constant : Node
  | ci : Node
  | gate (fn : Nat) (fanin : List Signal) : Node
deriving DecidableEq, Repr

/-- Modelled from the spec: a network is its node storage (a node is its
position in the storage) and its ordered primary outputs. -/
structure Network where
  nodes : List Node
  outputs : List Signal
deriving DecidableEq, Repr

namespace Network

/-- Number of nodes, `ntk.size()`. -/
def size (N : Network) : Nat := N.nodes.length

/-- Constant test, `ntk.is_constant(n)`. -/
def is_constant (N : Network) (n : Nat) : Bool :=
  match N.nodes[n]? with
  | some Node.constant => true
  | _ => false

/-- Combinational input test, `ntk.is_ci(n)`. -/
def is_ci (N : Network) (n : Nat) : Bool :=
  match N.nodes[n]? with
  | some Node.ci => true
  | _ => false

/-- Gate test: the node is neither a constant nor a combinational input. -/
def is_gate (N : Network) (n : Nat) : Bool :=
  match N.nodes[n]? with
  | some (Node.gate _ _) => true
  | _ => false

/-- Fan-in signals of a node in order, `ntk.foreach_fanin(n, ..)`. -/
def fanin (N : Network) (n : Nat) : List Signal :=
  match N.nodes[n]? with
  | some (Node.gate _ fs) => fs
  | _ => []

/-- Function code of a gate, the part of a node that `clone_node` copies. -/
def gate_fn (N : Network) (n : Nat) : Nat :=
  match N.nodes[n]? with
  | some (Node.gate fn _) => fn
  | _ => 0

/-- All nodes in storage order, `ntk.foreach_node(..)`. -/
def node_list (N : Network) : List Nat := List.range N.size

/-- Fanout consumers of a node, `fanout_view::foreach_fanout(n, ..)`: the nodes
that have `n` among their fan-ins. -/
def fanout (N : Network) (n : Nat) : List Nat :=
  N.node_list.filter (fun s => (N.fanin s).any (fun f => f.index == n))

/-- Combinational inputs in creation order. -/
def cis (N : Network) : List Nat := N.node_list.filter N.is_ci

/-- Number of combinational inputs, `num_cis()`. -/
def num_cis (N : Network) : Nat := N.cis.length

/-- Number of combinational outputs, `num_cos()`. -/
def num_cos (N : Network) : Nat := N.outputs.length

/-- The i-th combinational input, `ci_at(i)`. -/
def ci_at (N : Network) (i : Nat) : Nat := N.cis.getD i 0

end Network

/-- Node of a signal, `ntk.get_node(s)`. -/
def get_node (s : Signal) : Nat := s.index

/-- Non-complemented signal of a node, `ntk.make_signal(n)`. -/
def make_signal (n : Nat) : Signal := ⟨n, false⟩

/-- Modelled from the spec: negating a signal flips its polarity,
`ntk.create_not(s)`. -/
def create_not (s : Signal) : Signal := ⟨s.index, !s.complement⟩

/-- Rewiring of one fan-in or output signal: a use of node `old` becomes a use
of `new`, the polarity of the use preserved. -/
def Signal.substitute (old : Nat) (new : Signal) (s : Signal) : Signal :=
  if s.index = old then ⟨new.index, xor new.complement s.complement⟩ else s

/-- Rewiring of the fan-ins of one node. -/
def Node.substitute (old : Nat) (new : Signal) : Node → Node
  | Node.gate fn fs => Node.gate fn (fs.map (Signal.substitute old new))
  | nd => nd

namespace Network

/-- Modelled from the spec: `clone_node(opt, node, children)` adds a new node
with the function of `node` in `opt` and the given fan-ins, and returns its
signal. -/
def clone_node (N : Network) (opt : Network) (node : Nat) (children : List Signal) :
    Network × Signal :=
  ({ nodes := N.nodes ++ [Node.gate (opt.gate_fn node) children], outputs := N.outputs },
   make_signal N.size)

/-- Modelled from the spec: `substitute_node(old, new)` rewires every consumer
of `old`, gates and primary outputs, to `new`; the old node stays in the
storage. -/
def substitute_node (N : Network) (old : Nat) (new : Signal) : Network :=
  { nodes := N.nodes.map (Node.substitute old new),
    outputs := N.outputs.map (Signal.substitute old new) }

end Network

/-! ## Boolean semantics -/

/-- All results of a list of evaluations, or `none` when one of them failed. -/
def all_some : List (Option Bool) → Option (List Bool)
  | [] => some []
  | none :: _ => none
  | some b :: rest =>
    match all_some rest with
    | some bs => some (b :: bs)
    | none => none

namespace Network

/-- Value of node `n` under the primary-input assignment `env`, where `interp`
gives the boolean function of each gate code. The evaluation follows fan-ins
for at most `fuel` levels and yields `none` when the fuel is used up, as it is
on a cyclic network. -/
def simulate (interp : Nat → List Bool → Bool) (N : Network) (env : Nat → Bool) :
    Nat → Nat → Option Bool
  | 0, _ => none
  | fuel + 1, n =>
    match N.nodes[n]? with
    | none => none
    | some Node.constant => some false
    | some Node.ci => some (env n)
    | some (Node.gate fn fs) =>
      (all_some (fs.map (fun s =>
        (simulate interp N env fuel s.index).map (fun b => xor b s.complement)))).map (interp fn)

/-- Value of a signal: the value of its node, inverted when complemented. -/
def simulate_signal (interp : Nat → List Bool → Bool) (N : Network) (env : Nat → Bool)
    (fuel : Nat) (s : Signal) : Option Bool :=
  (N.simulate interp env fuel s.index).map (fun b => xor b s.complement)

/-- Value of the i-th primary output, with one unit of fuel per node. -/
def output_value (interp : Nat → List Bool → Bool) (N : Network) (env : Nat → Bool)
    (i : Nat) : Option Bool :=
  match N.outputs[i]? with
  | some s => N.simulate_signal interp env N.size s
  | none => none

end Network

/-! ## The partition manager -/

/-- Modelled from the spec: `node_map<int, network>`, one id per node in
storage order; a read past the stored entries gives the value `resize` would
store there. -/
abbrev PartitionMap := List Int

/-- Lookup `partitions[n]`. -/
def PartitionMap.get (p : PartitionMap) (n : Nat) : Int := p.getD n 0

/-- The call `partitions.resize()`: one entry per node of the network. -/
def PartitionMap.resize (p : PartitionMap) (size : Nat) : PartitionMap :=
  (p ++ List.replicate (size - p.length) 0).take size

/-- Modelled from the spec: `window_view(ntk, inputs, outputs, gates)`, the
boundary inputs and outputs in order and the gates of the partition. -/
structure Window where
  inputs : List Nat
  outputs : List Signal
  gates : List Nat
deriving DecidableEq, Repr

/-- Number of window inputs, `part.num_cis()`. -/
def Window.num_cis (w : Window) : Nat := w.inputs.length

/-- Number of window outputs, `part.num_cos()`. -/
def Window.num_cos (w : Window) : Nat := w.outputs.length

/-- The window output at a position, `part.co_at(index)`. -/
def Window.co_at (w : Window) (index : Nat) : Signal := w.outputs.getD index ⟨0, false⟩

/-- The member `substitutions`, an `unordered_map<node, signal>`; entries are
kept in insertion order, which is also the order of iteration. -/
abbrev Table := List (Nat × Signal)

/-- Assignment `substitutions[k] = v`: overwrite the entry of `k`, or add one. -/
def Table.assign : Table → Nat → Signal → Table
  | [], k, v => [(k, v)]
  | (k0, v0) :: rest, k, v =>
    if k0 = k then (k0, v) :: rest else (k0, v0) :: Table.assign rest k v

/-- State of a `partition_manager_junior`: its four data members. -/
structure Manager where
  ntk : Network
  partitions : PartitionMap
  partition_count : Int
  substitutions : Table
deriving DecidableEq, Repr

/-- The constructor `partition_manager_junior(ntk, partitions, part_num)`. -/
def Manager.mk_junior (ntk : Network) (partitions : PartitionMap) (part_num : Int) : Manager :=
  { ntk := ntk, partitions := partitions, partition_count := part_num, substitutions := [] }

/-- The three vectors filled by the scan of `partition`. -/
structure Scan where
  inputs : List Nat
  outputs : List Signal
  gates : List Nat
deriving DecidableEq, Repr

/-- The call `std::unique`: drop every element equal to its predecessor. -/
def unique {α : Type} [DecidableEq α] : List α → List α
  | [] => []
  | [a] => [a]
  | a :: b :: l => if a = b then unique (b :: l) else a :: unique (b :: l)

namespace Manager

/-- Body of the `foreach_node` loop of `partition` (lines 90-118) for node `n`. -/
def visit (m : Manager) (id : Int) (acc : Scan) (n : Nat) : Scan :=
  if m.partitions.get n != id || m.ntk.is_constant n then acc
  else
    let acc1 : Scan :=
      if m.ntk.is_ci n then { acc with inputs := acc.inputs ++ [n] }
      else
        { acc with
          gates := acc.gates ++ [n]
          inputs := acc.inputs ++
            ((m.ntk.fanin n).map get_node).filter
              (fun fin => m.partitions.get fin != id && !m.ntk.is_constant fin) }
    let acc2 : Scan :=
      { acc1 with
        outputs := acc1.outputs ++
          ((m.ntk.fanout n).filter (fun s => m.partitions.get s != id)).map
            (fun _ => make_signal n) }
    { acc2 with
      outputs := acc2.outputs ++
        (m.ntk.outputs.filter (fun s => get_node s == n)).map (fun _ => make_signal n) }

/-- The scan of `partition` over all nodes, before sorting. -/
def scan (m : Manager) (id : Int) : Scan :=
  m.ntk.node_list.foldl (m.visit id) { inputs := [], outputs := [], gates := [] }

/-- The method `partition(id)`: the window of the partition, and the manager
after the call. -/
def partition (m : Manager) (id : Int) : Window × Manager :=
  let s := m.scan id
  let inputs := unique (s.inputs.insertionSort (fun a b => a ≤ b))
  let outputs := unique (s.outputs.insertionSort (fun a b => a.data ≤ b.data))
  ({ inputs := inputs, outputs := outputs, gates := s.gates },
   { ntk := m.ntk, partitions := m.partitions, partition_count := m.partition_count,
     substitutions := m.substitutions })

/-- The method `node_partition(n)`. -/
def node_partition (m : Manager) (n : Nat) : Int := m.partitions.get n

/-- The method `count()`. -/
def count (m : Manager) : Int := m.partition_count

end Manager

/-! ## Reintegration -/

/-- The local `old_to_new`, a `node_map<signal, ..>` over the optimized network:
the entries written so far; a node without one reads as the default signal. -/
abbrev NodeMap := Nat → Option Signal

/-- Assignment `old_to_new[k] = v`. -/
def NodeMap.assign (f : NodeMap) (k : Nat) (v : Signal) : NodeMap :=
  fun x => if x = k then some v else f x

/-- Lookup `old_to_new[k]`; the default-constructed signal is node 0,
non-complemented. -/
def NodeMap.get (f : NodeMap) (k : Nat) : Signal := (f k).getD ⟨0, false⟩

/-- How a call of `integrate` ended. -/
inductive Outcome where
  | done : Outcome
  | assertion_failed : Outcome
deriving DecidableEq, Repr

/-- Lines 147-150: the i-th input of the optimized network stands for the i-th
window input. -/
def seed_inputs (opt : Network) : List Nat → Nat → NodeMap → NodeMap
  | [], _, f => f
  | n :: rest, i, f => seed_inputs opt rest (i + 1) (f.assign (opt.ci_at i) (make_signal n))

/-- Lines 158-159: a fan-in of an optimized gate, mapped into the parent
network. -/
def resolve (f : NodeMap) (child : Signal) : Signal :=
  if child.complement then create_not (f.get child.index) else f.get child.index

/-- Lines 154-169: clone the gates of the optimized network in the order
`opt_topo` yields them. Names are not modelled. -/
def clone_gates (opt : Network) : List Nat → Network → NodeMap → Network × NodeMap
  | [], ntk, f => (ntk, f)
  | node :: rest, ntk, f =>
    let children := (opt.fanin node).map (resolve f)
    let r := ntk.clone_node opt node children
    clone_gates opt rest r.1 (f.assign node r.2)

/-- Lines 172-174: the clones take the partition id. -/
def assign_partitions (f : NodeMap) (partition_id : Int) : List Nat → PartitionMap → PartitionMap
  | [], p => p
  | node :: rest, p =>
    assign_partitions f partition_id rest (p.set (get_node (f.get node)) partition_id)

/-- Lines 178-189: one substitution per output of the optimized network. -/
def calc_substitutions (opt : Network) (part : Window) (f : NodeMap) :
    List Signal → Nat → Table → Table
  | [], _, t => t
  | opt_signal :: rest, index, t =>
    let opt_node := get_node opt_signal
    let new_out := if opt_signal.complement then create_not (f.get opt_node) else f.get opt_node
    let part_signal := part.co_at index
    let orig_node := get_node part_signal
    let t1 := if !opt.is_constant opt_node && !opt.is_ci opt_node
      then t.assign orig_node new_out else t
    calc_substitutions opt part f rest (index + 1) t1

/-- Lines 194-196: apply every entry of the table, one at a time. -/
def apply_substitutions : Table → Network → Network
  | [], ntk => ntk
  | (old, new) :: rest, ntk => apply_substitutions rest (ntk.substitute_node old new)

/-- The method `integrate(partition_id, part, opt)`. The argument `opt_topo` is
the order in which `topo_view{opt}` yields the gates of `opt`; the view is not
part of the source file. The two assertions are taken as active. -/
def Manager.integrate (m : Manager) (partition_id : Int) (part : Window) (opt : Network)
    (opt_topo : List Nat) : Outcome × Manager :=
  if opt.num_cis ≠ part.num_cis then (Outcome.assertion_failed, m)
  else if opt.num_cos ≠ part.num_cos then (Outcome.assertion_failed, m)
  else
    let old_to_new := seed_inputs opt part.inputs 0 (fun _ => none)
    let cloned := clone_gates opt opt_topo m.ntk old_to_new
    let partitions :=
      assign_partitions cloned.2 partition_id opt_topo (m.partitions.resize cloned.1.size)
    let substitutions := calc_substitutions opt part cloned.2 opt.outputs 0 m.substitutions
    (Outcome.done,
     { ntk := apply_substitutions substitutions cloned.1,
       partitions := partitions,
       partition_count := m.partition_count,
       substitutions := substitutions })

/-- The method `integrate(id, opt)`: extract the window, then integrate. -/
def Manager.integrate_partition (m : Manager) (id : Int) (opt : Network) (opt_topo : List Nat) :
    Outcome × Manager :=
  let r := m.partition id
  r.2.integrate id r.1 opt opt_topo

/-! ## Example networks -/

/-- Two inputs `1`, `2` and the gate `3 = f(1, 2)`, the primary output. -/
def two_input_gate : Network :=
  ⟨[Node.constant, Node.ci, Node.ci, Node.gate 0 [⟨1, false⟩, ⟨2, false⟩]], [⟨3, false⟩]⟩

/-- One input and one gate over it, the primary output. -/
def one_input_gate : Network :=
  ⟨[Node.constant, Node.ci, Node.gate 0 [⟨1, false⟩]], [⟨2, false⟩]⟩

/-- Every gate code is a conjunction of the fan-ins. -/
def and_gates : Nat → List Bool → Bool := fun _ bs => bs.all (fun b => b)

/-- The assignment giving `a` to node 1 and `b` to every other input. -/
def assign_two (a b : Bool) : Nat → Bool := fun n => if n = 1 then a else b

/-- Two inputs; the primary output is input `1` itself. -/
def two_input_wire : Network :=
  ⟨[Node.constant, Node.ci, Node.ci], [⟨1, false⟩]⟩

/-- Gate code 0 is the conjunction of the fan-ins, code 1 their disjunction, every other
code the negated conjunction. -/
def and_or_nand_gates : Nat → List Bool → Bool :=
  fun fn bs => if fn = 0 then bs.all (fun b => b)
    else if fn = 1 then bs.any (fun b => b) else !(bs.all (fun b => b))

/-- The gate `3 = NAND(1, 2)` and its consumer `4 = f(not 3)`, the primary output. -/
def nand_consumer : Network :=
  ⟨[Node.constant, Node.ci, Node.ci, Node.gate 2 [⟨1, false⟩, ⟨2, false⟩],
    Node.gate 0 [⟨3, true⟩]], [⟨4, false⟩]⟩

/-- The function NAND as the complemented output of `3 = AND(1, 2)`. -/
def complemented_and : Network :=
  ⟨[Node.constant, Node.ci, Node.ci, Node.gate 0 [⟨1, false⟩, ⟨2, false⟩]], [⟨3, true⟩]⟩

/-- One input and the gate `2 = f(constant, 1)`, the primary output. -/
def constant_fed_gate : Network :=
  ⟨[Node.constant, Node.ci, Node.gate 0 [⟨0, false⟩, ⟨1, false⟩]], [⟨2, false⟩]⟩

/-- A network with no input, no gate and no output. -/
def empty_network : Network := ⟨[Node.constant], []⟩

/-- Value of a signal under a valuation of the nodes. -/
def Signal.value (v : Nat → Bool) (s : Signal) : Bool := xor (v s.index) s.complement

/-- The valuation `v` gives every node of `N` the value its kind prescribes under
the input assignment `env`. -/
def Network.Consistent (interp : Nat → List Bool → Bool) (N : Network) (env v : Nat → Bool) :
    Prop :=
  ∀ n, (N.is_constant n = true → v n = false) ∧ (N.is_ci n = true → v n = env n) ∧
    (N.is_gate n = true → v n = interp (N.gate_fn n) ((N.fanin n).map (Signal.value v)))

/-- Node 0 is the constant and every fan-in and primary output is a node. -/
def Network.WellFormed (N : Network) : Prop :=
  N.is_constant 0 = true ∧ (∀ n < N.size, ∀ s ∈ N.fanin n, s.index < N.size) ∧
    (∀ s ∈ N.outputs, s.index < N.size)

/-- The function `rank` decreases along every fan-in edge. -/
def Network.Ranked (N : Network) (rank : Nat → Nat) : Prop :=
  ∀ n < N.size, ∀ s ∈ N.fanin n, rank s.index < rank n

/-- No node reaches itself through fan-ins. -/
def Network.Acyclic (N : Network) : Prop := ∃ rank : Nat → Nat, N.Ranked rank

/-- The valuation computed by `simulate` with one unit of fuel per node. -/
def Network.valuation (interp : Nat → List Bool → Bool) (N : Network) (env : Nat → Bool)
    (n : Nat) : Bool :=
  (N.simulate interp env N.size n).getD false

/-- The order `topo` lists gates of `O` once, every gate after the gates among its fan-ins,
and holds the gate of every primary output. -/
def TopoOrder (O : Network) (topo : List Nat) : Prop :=
  topo.Nodup ∧ (∀ g ∈ topo, O.is_gate g = true) ∧
    (∀ j < topo.length, ∀ c ∈ O.fanin (topo.getD j 0),
      O.is_gate c.index = true → c.index ∈ topo.take j) ∧
    (∀ s ∈ O.outputs, O.is_gate s.index = true → s.index ∈ topo)

/-- The replacement `O` is the window `part` of `N` up to the renaming `φ` of its nodes:
the i-th input of `O` stands for the i-th window input, a constant for a constant, every
gate for a window gate with the same function and the same fan-ins, and the i-th output of
`O` for the i-th window output. -/
structure Identical (N : Network) (part : Window) (O : Network) (φ : Nat → Nat) : Prop where
  count_cis : O.num_cis = part.num_cis
  count_cos : O.num_cos = part.num_cos
  input_map : ∀ j < part.inputs.length, φ (O.ci_at j) = part.inputs.getD j 0
  constant_map : ∀ x < O.size, O.is_constant x = true → N.is_constant (φ x) = true
  gate_map : ∀ g < O.size, O.is_gate g = true →
    φ g ∈ part.gates ∧ N.gate_fn (φ g) = O.gate_fn g ∧
      N.fanin (φ g) = (O.fanin g).map (fun c => ⟨φ c.index, c.complement⟩)
  output_map : ∀ i < O.outputs.length,
    part.co_at i = ⟨φ (O.outputs.getD i ⟨0, false⟩).index,
      (O.outputs.getD i ⟨0, false⟩).complement⟩

/-! ## Auxiliary definitions for the proofs -/

/-- What the scan adds to `inputs` at node `n`. -/
def Manager.visit_inputs (m : Manager) (id : Int) (n : Nat) : List Nat :=
  if m.partitions.get n != id || m.ntk.is_constant n then []
  else if m.ntk.is_ci n then [n]
  else ((m.ntk.fanin n).map get_node).filter
          (fun fin => m.partitions.get fin != id && !m.ntk.is_constant fin)

/-- What the scan adds to `gates` at node `n`. -/
def Manager.visit_gates (m : Manager) (id : Int) (n : Nat) : List Nat :=
  if m.partitions.get n != id || m.ntk.is_constant n then []
  else if m.ntk.is_ci n then [] else [n]

/-- What the scan adds to `outputs` at node `n`. -/
def Manager.visit_outputs (m : Manager) (id : Int) (n : Nat) : List Signal :=
  if m.partitions.get n != id || m.ntk.is_constant n then []
  else ((m.ntk.fanout n).filter (fun s => m.partitions.get s != id)).map (fun _ => make_signal n)
    ++ (m.ntk.outputs.filter (fun s => get_node s == n)).map (fun _ => make_signal n)

/-- Apply a rewiring to the fan-ins of a node. -/
def Node.map_fanin (g : Signal → Signal) : Node → Node
  | Node.gate fn fs => Node.gate fn (fs.map g)
  | nd => nd

/-- The rewiring of one signal by all entries of the table, in order. -/
def Table.rewire : Table → Signal → Signal
  | [], s => s
  | (old, new) :: rest, s => Table.rewire rest (Signal.substitute old new s)

/-- The nodes appended by `clone_gates`, where `base` is the size of the network. -/
def clone_nodes (opt : Network) : List Nat → Nat → NodeMap → List Node
  | [], _, _ => []
  | node :: rest, base, f =>
    Node.gate (opt.gate_fn node) ((opt.fanin node).map (resolve f)) ::
      clone_nodes opt rest (base + 1) (f.assign node (make_signal base))

/-- The map `old_to_new` left by `clone_gates`. -/
def clone_map : List Nat → Nat → NodeMap → NodeMap
  | [], _, f => f
  | node :: rest, base, f => clone_map rest (base + 1) (f.assign node (make_signal base))

/-- The map `old_to_new` at the end of a call of `integrate`. -/
def old_to_new_map (N : Network) (part : Window) (O : Network) (topo : List Nat) : NodeMap :=
  clone_map topo N.size (seed_inputs O part.inputs 0 (fun _ => none))

/-- The table computed by a call of `integrate` on a manager whose table is empty. -/
def new_table (N : Network) (part : Window) (O : Network) (topo : List Nat) : Table :=
  calc_substitutions O part (old_to_new_map N part O topo) O.outputs 0 []

/-- The network left by a call of `integrate` on a manager whose table is empty. -/
def integrated (N : Network) (part : Window) (O : Network) (topo : List Nat) : Network :=
  { nodes := (N.nodes ++ clone_nodes O topo N.size (seed_inputs O part.inputs 0 (fun _ => none))).map
      (Node.map_fanin (new_table N part O topo).rewire),
    outputs := N.outputs.map (new_table N part O topo).rewire }

/-- The conditions under which a call of `integrate` is analysed: both networks are
well-formed, the gates of the replacement come in a topological order, the counts agree and
the window lists hold nodes of the parent network. -/
structure Setting (N : Network) (part : Window) (O : Network) (topo : List Nat) : Prop where
  wf_parent : N.WellFormed
  wf_opt : O.WellFormed
  topo_opt : TopoOrder O topo
  count_cis : O.num_cis = part.num_cis
  count_cos : O.num_cos = part.num_cos
  inputs_lt : ∀ n ∈ part.inputs, n < N.size
  outputs_lt : ∀ s ∈ part.outputs, s.index < N.size

/-- A labelling of the integrated network: a parent node keeps its label, the clone of a
gate of the replacement takes the label of that gate. -/
def merged {α : Type} (N : Network) (topo : List Nat) (v vO : Nat → α) (n : Nat) : α :=
  if n < N.size then v n else vO (topo.getD (n - N.size) 0)

/-- A rank in which the constants have rank 0 and every other node a positive rank. -/
def grounded_rank (N : Network) (rank : Nat → Nat) (n : Nat) : Nat :=
  if N.is_constant n = true then 0 else rank n + 1

/-! ## Lemmas on the scan of `partition` -/

theorem visit_eq (m : Manager) (id : Int) (acc : Scan) (n : Nat) :
    m.visit id acc n =
      { inputs := acc.inputs ++ m.visit_inputs id n,
        outputs := acc.outputs ++ m.visit_outputs id n,
        gates := acc.gates ++ m.visit_gates id n } := by
  unfold Manager.visit Manager.visit_inputs Manager.visit_outputs Manager.visit_gates
  by_cases h : (m.partitions.get n != id || m.ntk.is_constant n) = true
  · simp [h]
  · by_cases hc : m.ntk.is_ci n = true
    · simp [h, hc]
    · simp [h, hc]

theorem foldl_visit (m : Manager) (id : Int) (l : List Nat) (acc : Scan) :
    l.foldl (m.visit id) acc =
      { inputs := acc.inputs ++ l.flatMap (m.visit_inputs id),
        outputs := acc.outputs ++ l.flatMap (m.visit_outputs id),
        gates := acc.gates ++ l.flatMap (m.visit_gates id) } := by
  induction l generalizing acc with
  | nil => simp
  | cons a l ih => simp [List.foldl_cons, ih, visit_eq, List.append_assoc]

theorem scan_inputs (m : Manager) (id : Int) :
    (m.scan id).inputs = m.ntk.node_list.flatMap (m.visit_inputs id) := by
  simp [Manager.scan, foldl_visit]

theorem scan_outputs (m : Manager) (id : Int) :
    (m.scan id).outputs = m.ntk.node_list.flatMap (m.visit_outputs id) := by
  simp [Manager.scan, foldl_visit]

theorem scan_gates (m : Manager) (id : Int) :
    (m.scan id).gates = m.ntk.node_list.flatMap (m.visit_gates id) := by
  simp [Manager.scan, foldl_visit]

theorem mem_unique {α : Type} [DecidableEq α] (x : α) : ∀ l : List α, x ∈ unique l ↔ x ∈ l
  | [] => by simp [unique]
  | [a] => by simp [unique]
  | a :: b :: l => by
    have ih := mem_unique x (b :: l)
    unfold unique
    by_cases h : a = b
    · subst h
      simp only [if_true, ih, List.mem_cons]
      tauto
    · simp only [h, if_false]
      rw [List.mem_cons, ih]
      simp

theorem unique_sorted {α : Type} [DecidableEq α] (f : α → Nat) (hf : Function.Injective f) :
    ∀ l : List α, l.Pairwise (fun a b => f a ≤ f b) → (unique l).Pairwise (fun a b => f a < f b)
  | [], _ => by simp [unique]
  | [a], _ => by simp [unique]
  | a :: b :: l, h => by
    have hrest : (b :: l).Pairwise (fun a b => f a ≤ f b) := (List.pairwise_cons.1 h).2
    have ih := unique_sorted f hf (b :: l) hrest
    unfold unique
    by_cases hab : a = b
    · simp only [hab, if_true]
      exact ih
    · simp only [hab, if_false]
      refine List.pairwise_cons.2 ⟨?_, ih⟩
      intro x hx
      have hx1 : x ∈ b :: l := (mem_unique x (b :: l)).1 hx
      have hle : f a ≤ f b := (List.pairwise_cons.1 h).1 b (List.mem_cons_self _ _)
      have hne : f a ≠ f b := fun e => hab (hf e)
      have hbx : f b ≤ f x := by
        rcases List.mem_cons.1 hx1 with rfl | hxl
        · exact le_rfl
        · exact (List.pairwise_cons.1 hrest).1 x hxl
      omega

theorem data_injective : Function.Injective Signal.data := by
  intro a b h
  cases a with
  | mk ai ac =>
  cases b with
  | mk bi bc =>
  simp only [Signal.data] at h
  have hi : ai = bi := by cases ac <;> cases bc <;> simp at h <;> omega
  subst hi
  cases ac <;> cases bc <;> simp at h <;> rfl

theorem mem_visit_gates (m : Manager) (id : Int) (a n : Nat) :
    n ∈ m.visit_gates id a ↔
      (n = a ∧ m.partitions.get a = id ∧ m.ntk.is_constant a = false ∧ m.ntk.is_ci a = false) := by
  unfold Manager.visit_gates
  by_cases h1 : m.partitions.get a = id <;> by_cases h2 : m.ntk.is_constant a = true <;>
    by_cases h3 : m.ntk.is_ci a = true <;> simp [h1, h2, h3]

theorem mem_partition_gates (m : Manager) (id : Int) (n : Nat) :
    n ∈ (m.partition id).1.gates ↔
      (n < m.ntk.size ∧ m.partitions.get n = id ∧ m.ntk.is_constant n = false ∧
        m.ntk.is_ci n = false) := by
  simp only [Manager.partition, scan_gates, List.mem_flatMap, mem_visit_gates, Network.node_list,
    List.mem_range]
  constructor
  · rintro ⟨a, ha, rfl, h⟩
    exact ⟨ha, h⟩
  · rintro ⟨hn, h⟩
    exact ⟨n, hn, rfl, h⟩

theorem is_ci_lt (N : Network) (n : Nat) (h : N.is_ci n = true) : n < N.size := by
  unfold Network.is_ci at h
  by_contra hn
  have : N.nodes[n]? = none := List.getElem?_eq_none (by unfold Network.size at hn; omega)
  simp [this] at h

theorem is_ci_not_constant (N : Network) (n : Nat) (h : N.is_ci n = true) :
    N.is_constant n = false := by
  unfold Network.is_ci at h
  unfold Network.is_constant
  split at h <;> simp_all

theorem mem_partition_inputs (m : Manager) (id : Int) (n : Nat) :
    n ∈ (m.partition id).1.inputs ↔
      ((m.ntk.is_ci n = true ∧ m.partitions.get n = id) ∨
       (m.ntk.is_constant n = false ∧ m.partitions.get n ≠ id ∧
          ∃ g ∈ (m.partition id).1.gates, ∃ f ∈ m.ntk.fanin g, get_node f = n)) := by
  have hg := mem_partition_gates m id
  simp only [Manager.partition] at hg ⊢
  rw [mem_unique, List.mem_insertionSort, scan_inputs, List.mem_flatMap]
  simp only [Network.node_list, List.mem_range]
  constructor
  · rintro ⟨a, ha, hmem⟩
    unfold Manager.visit_inputs at hmem
    by_cases h1 : m.partitions.get a = id
    · by_cases h2 : m.ntk.is_constant a = true
      · simp [h1, h2] at hmem
      · by_cases h3 : m.ntk.is_ci a = true
        · simp [h1, h2, h3] at hmem
          subst hmem
          exact Or.inl ⟨h3, h1⟩
        · simp only [h1, h2, h3, bne_self_eq_false, Bool.false_or, if_false, List.mem_filter,
            List.mem_map, Bool.and_eq_true, bne_iff_ne, ne_eq, Bool.not_eq_true',
            Bool.false_eq_true] at hmem
          obtain ⟨⟨f, hf, rfl⟩, hp, hc⟩ := hmem
          refine Or.inr ⟨hc, hp, a, (hg a).2 ⟨ha, h1, by simpa using h2, by simpa using h3⟩, f, hf, rfl⟩
    · simp [h1] at hmem
  · rintro (⟨hci, hp⟩ | ⟨hc, hp, g, hgm, f, hf, rfl⟩)
    · refine ⟨n, is_ci_lt _ _ hci, ?_⟩
      unfold Manager.visit_inputs
      simp [hp, is_ci_not_constant _ _ hci, hci]
    · obtain ⟨hlt, hgp, hgc, hgi⟩ := (hg g).1 hgm
      refine ⟨g, hlt, ?_⟩
      unfold Manager.visit_inputs
      simp only [hgp, hgc, hgi, bne_self_eq_false, Bool.false_or, if_false, Bool.false_eq_true,
        List.mem_filter, List.mem_map, Bool.and_eq_true, bne_iff_ne, ne_eq, Bool.not_eq_true']
      exact ⟨⟨f, hf, rfl⟩, hp, hc⟩

theorem mem_visit_outputs (m : Manager) (id : Int) (a : Nat) (s : Signal) :
    s ∈ m.visit_outputs id a ↔
      (s = make_signal a ∧ m.partitions.get a = id ∧ m.ntk.is_constant a = false ∧
        ((∃ c ∈ m.ntk.fanout a, m.partitions.get c ≠ id) ∨
         (∃ co ∈ m.ntk.outputs, get_node co = a))) := by
  unfold Manager.visit_outputs
  by_cases h1 : m.partitions.get a = id
  · by_cases h2 : m.ntk.is_constant a = true
    · simp [h1, h2]
    · have h2f : m.ntk.is_constant a = false := by simpa using h2
      simp only [h1, h2f, bne_self_eq_false, Bool.false_or, if_false, Bool.false_eq_true,
        List.mem_append, List.mem_map, List.mem_filter, bne_iff_ne, ne_eq, beq_iff_eq,
        true_and]
      constructor
      · rintro (⟨c, ⟨hc, hp⟩, rfl⟩ | ⟨co, ⟨hco, hn⟩, rfl⟩)
        · exact ⟨rfl, Or.inl ⟨c, hc, hp⟩⟩
        · exact ⟨rfl, Or.inr ⟨co, hco, hn⟩⟩
      · rintro ⟨rfl, (⟨c, hc, hp⟩ | ⟨co, hco, hn⟩)⟩
        · exact Or.inl ⟨c, ⟨hc, hp⟩, rfl⟩
        · exact Or.inr ⟨co, ⟨hco, hn⟩, rfl⟩
  · simp [h1]

theorem mem_partition_outputs (m : Manager) (id : Int) (s : Signal) :
    s ∈ (m.partition id).1.outputs ↔
      (s.complement = false ∧ s.index < m.ntk.size ∧ m.partitions.get s.index = id ∧
        m.ntk.is_constant s.index = false ∧
        ((∃ c ∈ m.ntk.fanout s.index, m.partitions.get c ≠ id) ∨
         (∃ co ∈ m.ntk.outputs, get_node co = s.index))) := by
  simp only [Manager.partition]
  rw [mem_unique, List.mem_insertionSort, scan_outputs, List.mem_flatMap]
  simp only [Network.node_list, List.mem_range, mem_visit_outputs]
  constructor
  · rintro ⟨a, ha, rfl, h⟩
    exact ⟨rfl, ha, h⟩
  · rintro ⟨hc, hlt, h⟩
    refine ⟨s.index, hlt, ?_, h⟩
    cases s with
    | mk i c =>
      simp only at hc
      subst hc
      rfl

theorem partition_inputs_sorted (m : Manager) (id : Int) :
    (m.partition id).1.inputs.Pairwise (fun a b => a < b) := by
  simp only [Manager.partition]
  exact unique_sorted (fun x => x) (fun _ _ h => h) _
    (List.sorted_insertionSort (fun a b : Nat => a ≤ b) _)

instance : IsTotal Signal (fun a b => a.data ≤ b.data) := ⟨fun a b => Nat.le_total a.data b.data⟩
instance : IsTrans Signal (fun a b => a.data ≤ b.data) := ⟨fun _ _ _ h1 h2 => Nat.le_trans h1 h2⟩

theorem partition_outputs_sorted (m : Manager) (id : Int) :
    (m.partition id).1.outputs.Pairwise (fun a b => a.data < b.data) := by
  simp only [Manager.partition]
  exact unique_sorted Signal.data data_injective _
    (List.sorted_insertionSort (fun a b : Signal => a.data ≤ b.data) _)

/-! ## Lemmas on the substitution table -/

theorem mem_keys_assign (t : Table) (k : Nat) (v : Signal) (x : Nat) :
    x ∈ (t.assign k v).map Prod.fst ↔ x ∈ t.map Prod.fst ∨ x = k := by
  induction t with
  | nil => simp [Table.assign]
  | cons e t ih =>
    obtain ⟨k0, v0⟩ := e
    unfold Table.assign
    by_cases h : k0 = k
    · subst h
      simp only [if_true, List.map_cons, List.mem_cons]
      tauto
    · simp only [h, if_false, List.map_cons, List.mem_cons, ih]
      tauto

theorem mem_keys_calc_substitutions (opt : Network) (part : Window) (f : NodeMap) (x : Nat) :
    ∀ (l : List Signal) (index : Nat) (t : Table),
      x ∈ (calc_substitutions opt part f l index t).map Prod.fst ↔
        (x ∈ t.map Prod.fst ∨
          ∃ j s, l[j]? = some s ∧ opt.is_constant (get_node s) = false ∧
            opt.is_ci (get_node s) = false ∧ get_node (part.co_at (index + j)) = x)
  | [], index, t => by simp [calc_substitutions]
  | s0 :: rest, index, t => by
    unfold calc_substitutions
    simp only
    rw [mem_keys_calc_substitutions opt part f x rest (index + 1)]
    constructor
    · rintro (h | ⟨j, s, hj, hc, hi, hx⟩)
      · by_cases hg : (!opt.is_constant (get_node s0) && !opt.is_ci (get_node s0)) = true
        · rw [if_pos hg, mem_keys_assign] at h
          rcases h with h | h
          · exact Or.inl h
          · simp only [Bool.and_eq_true, Bool.not_eq_true'] at hg
            exact Or.inr ⟨0, s0, by simp, hg.1, hg.2, h.symm⟩
        · rw [if_neg hg] at h
          exact Or.inl h
      · refine Or.inr ⟨j + 1, s, by simpa using hj, hc, hi, ?_⟩
        rw [← hx]
        congr 2
        omega
    · rintro (h | ⟨j, s, hj, hc, hi, hx⟩)
      · left
        by_cases hg : (!opt.is_constant (get_node s0) && !opt.is_ci (get_node s0)) = true
        · rw [if_pos hg, mem_keys_assign]
          exact Or.inl h
        · rw [if_neg hg]
          exact h
      · cases j with
        | zero =>
          simp only [List.getElem?_cons_zero, Option.some.injEq] at hj
          subst hj
          left
          have hg : (!opt.is_constant (get_node s0) && !opt.is_ci (get_node s0)) = true := by
            simp [hc, hi]
          rw [if_pos hg, mem_keys_assign]
          exact Or.inr hx.symm
        | succ j =>
          right
          refine ⟨j, s, by simpa using hj, hc, hi, ?_⟩
          rw [← hx]
          congr 2
          omega

/-! ## Lemmas on the semantics and on `integrate` -/

theorem all_some_map_eq {α : Type} (f : α → Option Bool) (g : α → Bool) :
    ∀ (l : List α) (bs : List Bool), all_some (l.map f) = some bs →
      (∀ s ∈ l, ∀ b, f s = some b → b = g s) → bs = l.map g
  | [], bs, h, _ => by
    simp only [List.map_nil, all_some, Option.some.injEq] at h
    simp [← h]
  | a :: l, bs, h, hg => by
    simp only [List.map_cons] at h
    cases hfa : f a with
    | none => rw [hfa] at h; simp [all_some] at h
    | some b =>
      rw [hfa] at h
      simp only [all_some] at h
      cases hrest : all_some (l.map f) with
      | none => rw [hrest] at h; simp at h
      | some bs' =>
        rw [hrest] at h
        simp only [Option.some.injEq] at h
        have ih := all_some_map_eq f g l bs' hrest (fun s hs => hg s (List.mem_cons_of_mem _ hs))
        rw [← h, ih, hg a (List.mem_cons_self _ _) b hfa]
        rfl

theorem all_some_map_exists {α : Type} (f : α → Option Bool) :
    ∀ (l : List α), (∀ s ∈ l, ∃ b, f s = some b) → ∃ bs, all_some (l.map f) = some bs
  | [], _ => ⟨[], rfl⟩
  | a :: l, h => by
    obtain ⟨b, hb⟩ := h a (List.mem_cons_self _ _)
    obtain ⟨bs, hbs⟩ := all_some_map_exists f l (fun s hs => h s (List.mem_cons_of_mem _ hs))
    exact ⟨b :: bs, by simp [all_some, hb, hbs]⟩

theorem all_some_map_mono {α : Type} (f f' : α → Option Bool) :
    ∀ (l : List α) (bs : List Bool), all_some (l.map f) = some bs →
      (∀ s ∈ l, ∀ b, f s = some b → f' s = some b) → all_some (l.map f') = some bs
  | [], bs, h, _ => by simpa using h
  | a :: l, bs, h, hg => by
    simp only [List.map_cons] at h ⊢
    cases hfa : f a with
    | none => rw [hfa] at h; simp [all_some] at h
    | some b =>
      rw [hfa] at h
      simp only [all_some] at h
      cases hrest : all_some (l.map f) with
      | none => rw [hrest] at h; simp at h
      | some bs' =>
        rw [hrest] at h
        have ih := all_some_map_mono f f' l bs' hrest
          (fun s hs => hg s (List.mem_cons_of_mem _ hs))
        rw [hg a (List.mem_cons_self _ _) b hfa]
        simp only [all_some, ih]
        exact h

theorem node_constant {N : Network} {n : Nat} (h : N.nodes[n]? = some Node.constant) :
    N.is_constant n = true ∧ N.is_ci n = false ∧ N.is_gate n = false ∧ N.fanin n = [] := by
  simp [Network.is_constant, Network.is_ci, Network.is_gate, Network.fanin, h]

theorem node_ci {N : Network} {n : Nat} (h : N.nodes[n]? = some Node.ci) :
    N.is_constant n = false ∧ N.is_ci n = true ∧ N.is_gate n = false ∧ N.fanin n = [] := by
  simp [Network.is_constant, Network.is_ci, Network.is_gate, Network.fanin, h]

theorem node_gate {N : Network} {n fn : Nat} {fs : List Signal}
    (h : N.nodes[n]? = some (Node.gate fn fs)) :
    N.is_constant n = false ∧ N.is_ci n = false ∧ N.is_gate n = true ∧ N.fanin n = fs ∧
      N.gate_fn n = fn := by
  simp [Network.is_constant, Network.is_ci, Network.is_gate, Network.fanin, Network.gate_fn, h]

theorem node_none {N : Network} {n : Nat} (h : N.nodes[n]? = none) :
    N.is_constant n = false ∧ N.is_ci n = false ∧ N.is_gate n = false ∧ N.fanin n = [] := by
  simp [Network.is_constant, Network.is_ci, Network.is_gate, Network.fanin, h]

theorem is_gate_node {N : Network} {n : Nat} (h : N.is_gate n = true) :
    N.nodes[n]? = some (Node.gate (N.gate_fn n) (N.fanin n)) := by
  unfold Network.is_gate at h
  unfold Network.gate_fn Network.fanin
  split at h <;> simp_all

theorem is_constant_node {N : Network} {n : Nat} (h : N.is_constant n = true) :
    N.nodes[n]? = some Node.constant := by
  unfold Network.is_constant at h
  split at h <;> simp_all

theorem is_ci_node {N : Network} {n : Nat} (h : N.is_ci n = true) :
    N.nodes[n]? = some Node.ci := by
  unfold Network.is_ci at h
  split at h <;> simp_all

theorem simulate_zero (interp : Nat → List Bool → Bool) (N : Network) (env : Nat → Bool)
    (n : Nat) : N.simulate interp env 0 n = none := by
  rw [Network.simulate]

theorem simulate_none (interp : Nat → List Bool → Bool) (N : Network) (env : Nat → Bool)
    (fuel n : Nat) (h : N.nodes[n]? = none) : N.simulate interp env fuel n = none := by
  cases fuel with
  | zero => rw [Network.simulate]
  | succ fuel => rw [Network.simulate, h]

theorem simulate_constant (interp : Nat → List Bool → Bool) (N : Network) (env : Nat → Bool)
    (fuel n : Nat) (h : N.nodes[n]? = some Node.constant) :
    N.simulate interp env (fuel + 1) n = some false := by
  rw [Network.simulate, h]

theorem simulate_ci (interp : Nat → List Bool → Bool) (N : Network) (env : Nat → Bool)
    (fuel n : Nat) (h : N.nodes[n]? = some Node.ci) :
    N.simulate interp env (fuel + 1) n = some (env n) := by
  rw [Network.simulate, h]

theorem simulate_gate (interp : Nat → List Bool → Bool) (N : Network) (env : Nat → Bool)
    (fuel n fn : Nat) (fs : List Signal) (h : N.nodes[n]? = some (Node.gate fn fs)) :
    N.simulate interp env (fuel + 1) n =
      (all_some (fs.map (N.simulate_signal interp env fuel))).map (interp fn) := by
  rw [Network.simulate, h]
  rfl

theorem simulate_signal_some (interp : Nat → List Bool → Bool) (N : Network) (env : Nat → Bool)
    (fuel : Nat) (s : Signal) (b : Bool) (h : N.simulate_signal interp env fuel s = some b) :
    ∃ c, N.simulate interp env fuel s.index = some c ∧ b = xor c s.complement := by
  unfold Network.simulate_signal at h
  cases hs : N.simulate interp env fuel s.index with
  | none => rw [hs] at h; simp at h
  | some c =>
    rw [hs] at h
    simp only [Option.map_some', Option.some.injEq] at h
    exact ⟨c, rfl, h.symm⟩

/-- Soundness: a value returned by `simulate` is the value of every consistent valuation. -/
theorem simulate_sound (interp : Nat → List Bool → Bool) (N : Network) (env v : Nat → Bool)
    (hv : N.Consistent interp env v) :
    ∀ (fuel n : Nat) (b : Bool), N.simulate interp env fuel n = some b → b = v n
  | 0, n, b, h => by simp [simulate_zero] at h
  | fuel + 1, n, b, h => by
    cases hn : N.nodes[n]? with
    | none => rw [simulate_none _ _ _ _ _ hn] at h; simp at h
    | some nd =>
      cases nd with
      | constant =>
        rw [simulate_constant _ _ _ _ _ hn] at h
        simp only [Option.some.injEq] at h
        rw [← h, (hv n).1 (node_constant hn).1]
      | ci =>
        rw [simulate_ci _ _ _ _ _ hn] at h
        simp only [Option.some.injEq] at h
        rw [← h, (hv n).2.1 (node_ci hn).2.1]
      | gate fn fs =>
        rw [simulate_gate _ _ _ _ _ _ _ hn] at h
        cases hall : all_some (fs.map (N.simulate_signal interp env fuel)) with
        | none => rw [hall] at h; simp at h
        | some bs =>
          rw [hall] at h
          simp only [Option.map_some', Option.some.injEq] at h
          have hbs := all_some_map_eq _ (Signal.value v) fs bs hall (by
            intro s _ b' hb'
            obtain ⟨c, hc, hb⟩ := simulate_signal_some _ _ _ _ _ _ hb'
            rw [hb, simulate_sound interp N env v hv fuel s.index c hc]
            rfl)
          obtain ⟨_, _, hg, hfs, hfn⟩ := node_gate hn
          rw [← h, (hv n).2.2 hg, hfs, hfn, hbs]

/-- More fuel does not change a value already obtained. -/
theorem simulate_mono (interp : Nat → List Bool → Bool) (N : Network) (env : Nat → Bool) :
    ∀ (fuel n : Nat) (b : Bool), N.simulate interp env fuel n = some b →
      N.simulate interp env (fuel + 1) n = some b
  | 0, n, b, h => by simp [simulate_zero] at h
  | fuel + 1, n, b, h => by
    cases hn : N.nodes[n]? with
    | none => rw [simulate_none _ _ _ _ _ hn] at h; simp at h
    | some nd =>
      cases nd with
      | constant =>
        rw [simulate_constant _ _ _ _ _ hn] at h ⊢
        exact h
      | ci =>
        rw [simulate_ci _ _ _ _ _ hn] at h ⊢
        exact h
      | gate fn fs =>
        rw [simulate_gate _ _ _ _ _ _ _ hn] at h ⊢
        cases hall : all_some (fs.map (N.simulate_signal interp env fuel)) with
        | none => rw [hall] at h; simp at h
        | some bs =>
          rw [hall] at h
          have hall' := all_some_map_mono _ (N.simulate_signal interp env (fuel + 1)) fs bs hall
            (by
              intro s _ b' hb'
              obtain ⟨c, hc, hb⟩ := simulate_signal_some _ _ _ _ _ _ hb'
              unfold Network.simulate_signal
              rw [simulate_mono interp N env fuel s.index c hc, hb]
              rfl)
          rw [hall']
          exact h

theorem simulate_mono_le (interp : Nat → List Bool → Bool) (N : Network) (env : Nat → Bool)
    (fuel fuel' n : Nat) (b : Bool) (hle : fuel ≤ fuel')
    (h : N.simulate interp env fuel n = some b) : N.simulate interp env fuel' n = some b := by
  induction hle with
  | refl => exact h
  | step _ ih => exact simulate_mono interp N env _ n b ih

theorem getElem?_some_of_lt (N : Network) (n : Nat) (h : n < N.size) :
    ∃ nd, N.nodes[n]? = some nd := by
  unfold Network.size at h
  exact ⟨N.nodes[n], List.getElem?_eq_getElem h⟩

/-- Termination: on a well-formed ranked network `simulate` returns a value as soon as the
fuel exceeds the number of nodes of smaller rank. -/
theorem simulate_terminates (interp : Nat → List Bool → Bool) (N : Network) (env : Nat → Bool)
    (hwf : N.WellFormed) (rank : Nat → Nat) (hr : N.Ranked rank) :
    ∀ (fuel n : Nat), n < N.size →
      ((Finset.range N.size).filter (fun m => rank m < rank n)).card < fuel →
      ∃ b, N.simulate interp env fuel n = some b
  | 0, n, _, h => by omega
  | fuel + 1, n, hn, h => by
    obtain ⟨nd, hnd⟩ := getElem?_some_of_lt N n hn
    cases nd with
    | constant => exact ⟨false, simulate_constant _ _ _ _ _ hnd⟩
    | ci => exact ⟨env n, simulate_ci _ _ _ _ _ hnd⟩
    | gate fn fs =>
      rw [simulate_gate _ _ _ _ _ _ _ hnd]
      have hfs : N.fanin n = fs := (node_gate hnd).2.2.2.1
      have hall : ∀ s ∈ fs, ∃ b, N.simulate_signal interp env fuel s = some b := by
        intro s hs
        have hs' : s ∈ N.fanin n := by rw [hfs]; exact hs
        have hlt : s.index < N.size := hwf.2.1 n hn s hs'
        have hrk : rank s.index < rank n := hr n hn s hs'
        have hcard : ((Finset.range N.size).filter (fun m => rank m < rank s.index)).card <
            ((Finset.range N.size).filter (fun m => rank m < rank n)).card := by
          apply Finset.card_lt_card
          rw [Finset.ssubset_iff_of_subset]
          · exact ⟨s.index, by simp [hlt, hrk], by simp⟩
          · intro m hm
            simp only [Finset.mem_filter, Finset.mem_range] at hm ⊢
            exact ⟨hm.1, by omega⟩
        obtain ⟨c, hc⟩ := simulate_terminates interp N env hwf rank hr fuel s.index hlt
          (by omega)
        exact ⟨xor c s.complement, by simp [Network.simulate_signal, hc]⟩
      obtain ⟨bs, hbs⟩ := all_some_map_exists _ fs hall
      exact ⟨interp fn bs, by rw [hbs]; rfl⟩

theorem simulate_size_some (interp : Nat → List Bool → Bool) (N : Network) (env : Nat → Bool)
    (hwf : N.WellFormed) (hac : N.Acyclic) (n : Nat) (hn : n < N.size) :
    ∃ b, N.simulate interp env N.size n = some b := by
  obtain ⟨rank, hr⟩ := hac
  apply simulate_terminates interp N env hwf rank hr N.size n hn
  have hsub : (Finset.range N.size).filter (fun m => rank m < rank n) ⊆
      (Finset.range N.size).erase n := by
    intro m hm
    simp only [Finset.mem_filter, Finset.mem_range, Finset.mem_erase] at hm ⊢
    refine ⟨?_, hm.1⟩
    rintro rfl
    exact absurd hm.2 (lt_irrefl _)
  have hcard := Finset.card_le_card hsub
  rw [Finset.card_erase_of_mem (by simpa using hn), Finset.card_range] at hcard
  omega

theorem simulate_eq_valuation (interp : Nat → List Bool → Bool) (N : Network) (env : Nat → Bool)
    (hwf : N.WellFormed) (hac : N.Acyclic) (n : Nat) (hn : n < N.size) :
    N.simulate interp env N.size n = some (N.valuation interp env n) := by
  obtain ⟨b, hb⟩ := simulate_size_some interp N env hwf hac n hn
  simp [Network.valuation, hb]

/-- On a well-formed acyclic network the computed valuation is consistent. -/
theorem valuation_consistent (interp : Nat → List Bool → Bool) (N : Network) (env : Nat → Bool)
    (hwf : N.WellFormed) (hac : N.Acyclic) : N.Consistent interp env (N.valuation interp env) := by
  intro n
  by_cases hn : n < N.size
  · have hsz : N.size = (N.size - 1) + 1 := by omega
    have hval := simulate_eq_valuation interp N env hwf hac n hn
    refine ⟨?_, ?_, ?_⟩
    · intro h
      rw [hsz, simulate_constant _ _ _ _ _ (is_constant_node h)] at hval
      simpa using hval.symm
    · intro h
      rw [hsz, simulate_ci _ _ _ _ _ (is_ci_node h)] at hval
      simpa using hval.symm
    · intro h
      rw [hsz, simulate_gate _ _ _ _ _ _ _ (is_gate_node h)] at hval
      cases hall : all_some ((N.fanin n).map (N.simulate_signal interp env (N.size - 1))) with
      | none => rw [hall] at hval; simp at hval
      | some bs =>
        rw [hall] at hval
        simp only [Option.map_some', Option.some.injEq] at hval
        have hbs := all_some_map_eq _ (Signal.value (N.valuation interp env)) (N.fanin n) bs hall
          (by
            intro s _ b' hb'
            obtain ⟨c, hc, hb⟩ := simulate_signal_some _ _ _ _ _ _ hb'
            have hc' := simulate_mono interp N env _ _ _ hc
            rw [← hsz] at hc'
            simp [Signal.value, Network.valuation, hc', hb])
        rw [← hval, hbs]
  · have hnone : N.nodes[n]? = none :=
      List.getElem?_eq_none (by unfold Network.size at hn; omega)
    obtain ⟨h1, h2, h3, _⟩ := node_none hnone
    simp [h1, h2, h3]

/-- On a well-formed acyclic network every consistent valuation is the computed one. -/
theorem valuation_unique (interp : Nat → List Bool → Bool) (N : Network) (env v : Nat → Bool)
    (hwf : N.WellFormed) (hac : N.Acyclic) (hv : N.Consistent interp env v) (n : Nat)
    (hn : n < N.size) : N.valuation interp env n = v n :=
  simulate_sound interp N env v hv N.size n _ (simulate_eq_valuation interp N env hwf hac n hn)

theorem simulate_signal_eq_value (interp : Nat → List Bool → Bool) (N : Network)
    (env v : Nat → Bool) (hwf : N.WellFormed) (hac : N.Acyclic)
    (hv : N.Consistent interp env v) (s : Signal) (hs : s.index < N.size) :
    N.simulate_signal interp env N.size s = some (Signal.value v s) := by
  unfold Network.simulate_signal
  rw [simulate_eq_valuation interp N env hwf hac s.index hs,
    valuation_unique interp N env v hwf hac hv s.index hs]
  rfl

theorem clone_gates_eq (opt : Network) :
    ∀ (topo : List Nat) (N : Network) (f : NodeMap),
      clone_gates opt topo N f =
        ({ nodes := N.nodes ++ clone_nodes opt topo N.size f, outputs := N.outputs },
         clone_map topo N.size f)
  | [], N, f => by simp [clone_gates, clone_nodes, clone_map]
  | g :: rest, N, f => by
    rw [clone_gates]
    simp only [Network.clone_node]
    rw [clone_gates_eq opt rest]
    simp [clone_nodes, clone_map, Network.size, List.append_assoc]

theorem clone_nodes_length (opt : Network) :
    ∀ (topo : List Nat) (base : Nat) (f : NodeMap), (clone_nodes opt topo base f).length = topo.length
  | [], _, _ => rfl
  | g :: rest, base, f => by simp [clone_nodes, clone_nodes_length opt rest]

theorem clone_map_not_mem :
    ∀ (topo : List Nat) (base : Nat) (f : NodeMap) (x : Nat), x ∉ topo →
      clone_map topo base f x = f x
  | [], _, _, _, _ => rfl
  | g :: rest, base, f, x, hx => by
    rw [clone_map, clone_map_not_mem rest _ _ x (fun h => hx (List.mem_cons_of_mem _ h))]
    have : x ≠ g := fun h => hx (h ▸ List.mem_cons_self _ _)
    simp [NodeMap.assign, this]

theorem clone_map_mem :
    ∀ (topo : List Nat) (base : Nat) (f : NodeMap) (j : Nat) (g : Nat), topo.Nodup →
      topo[j]? = some g → clone_map topo base f g = some (make_signal (base + j))
  | [], _, _, _, _, _, h => by simp at h
  | g0 :: rest, base, f, 0, g, hnd, h => by
    simp only [List.getElem?_cons_zero, Option.some.injEq] at h
    subst h
    rw [clone_map, clone_map_not_mem rest _ _ g0 (List.nodup_cons.1 hnd).1]
    simp [NodeMap.assign]
  | g0 :: rest, base, f, j + 1, g, hnd, h => by
    simp only [List.getElem?_cons_succ] at h
    rw [clone_map, clone_map_mem rest (base + 1) _ j g (List.nodup_cons.1 hnd).2 h]
    congr 2
    omega

theorem resolve_congr (f f' : NodeMap) (c : Signal) (h : f c.index = f' c.index) :
    resolve f c = resolve f' c := by
  simp [resolve, NodeMap.get, h]

theorem clone_nodes_get (opt : Network) :
    ∀ (topo : List Nat) (base : Nat) (f : NodeMap) (j : Nat) (g : Nat),
      (∀ j g, topo[j]? = some g → ∀ c ∈ opt.fanin g, c.index ∉ topo.drop j) →
      topo[j]? = some g →
      (clone_nodes opt topo base f)[j]? =
        some (Node.gate (opt.gate_fn g) ((opt.fanin g).map (resolve (clone_map topo base f))))
  | [], _, _, _, _, _, h => by simp at h
  | g0 :: rest, base, f, 0, g, hT, h => by
    simp only [List.getElem?_cons_zero, Option.some.injEq] at h
    subst h
    simp only [clone_nodes, List.getElem?_cons_zero, Option.some.injEq, Node.gate.injEq, true_and]
    apply List.map_congr_left
    intro c hc
    apply resolve_congr
    have hnot := hT 0 g0 (by simp) c hc
    simp only [List.drop_zero] at hnot
    rw [clone_map_not_mem _ _ _ _ hnot]
  | g0 :: rest, base, f, j + 1, g, hT, h => by
    simp only [List.getElem?_cons_succ] at h
    simp only [clone_nodes, List.getElem?_cons_succ]
    rw [clone_nodes_get opt rest (base + 1) _ j g (fun j' g' hj' c hc => by
      have := hT (j' + 1) g' (by simpa using hj') c hc
      simpa using this) h]
    rfl

theorem topo_order_fanin_not_later (O : Network) (topo : List Nat) (hT : TopoOrder O topo) :
    ∀ j g, topo[j]? = some g → ∀ c ∈ O.fanin g, c.index ∉ topo.drop j := by
  intro j g hj c hc hmem
  obtain ⟨hnd, hgate, hord, _⟩ := hT
  have hjlt : j < topo.length := by
    by_contra hge
    rw [List.getElem?_eq_none (by omega)] at hj
    simp at hj
  have hgd : topo.getD j 0 = g := by
    rw [List.getD_eq_getElem?_getD, hj]; rfl
  have hcg : O.is_gate c.index = true := hgate _ (List.mem_of_mem_drop hmem)
  have htake := hord j hjlt c (by rw [hgd]; exact hc) hcg
  have hdis : List.Disjoint (topo.take j) (topo.drop j) := by
    have := hnd
    rw [← List.take_append_drop j topo] at this
    exact List.disjoint_of_nodup_append this
  exact hdis htake hmem

theorem cis_nodup (O : Network) : O.cis.Nodup :=
  List.Nodup.filter _ (List.nodup_range _)

theorem mem_cis (O : Network) (x : Nat) : x ∈ O.cis ↔ O.is_ci x = true := by
  unfold Network.cis Network.node_list
  rw [List.mem_filter, List.mem_range]
  constructor
  · exact fun h => h.2
  · exact fun h => ⟨is_ci_lt O x h, h⟩

theorem ci_at_eq (O : Network) (i : Nat) (h : i < O.cis.length) : O.ci_at i = O.cis[i] := by
  unfold Network.ci_at
  exact List.getD_eq_getElem _ _ h

theorem ci_at_inj (O : Network) (i j : Nat) (hi : i < O.cis.length) (hj : j < O.cis.length)
    (h : O.ci_at i = O.ci_at j) : i = j := by
  rw [ci_at_eq O i hi, ci_at_eq O j hj] at h
  exact (List.Nodup.getElem_inj_iff (cis_nodup O)).1 h

theorem ci_at_is_ci (O : Network) (i : Nat) (h : i < O.cis.length) :
    O.is_ci (O.ci_at i) = true := by
  rw [ci_at_eq O i h]
  exact (mem_cis O _).1 (List.getElem_mem _)

theorem is_ci_exists_ci_at (O : Network) (x : Nat) (h : O.is_ci x = true) :
    ∃ i, i < O.cis.length ∧ O.ci_at i = x := by
  obtain ⟨i, hi, hx⟩ := List.getElem_of_mem ((mem_cis O x).2 h)
  exact ⟨i, hi, by rw [ci_at_eq O i hi, hx]⟩

theorem seed_inputs_other (O : Network) :
    ∀ (inputs : List Nat) (i0 : Nat) (f : NodeMap) (x : Nat),
      (∀ j, j < inputs.length → x ≠ O.ci_at (i0 + j)) → seed_inputs O inputs i0 f x = f x
  | [], _, _, _, _ => rfl
  | n :: rest, i0, f, x, h => by
    rw [seed_inputs, seed_inputs_other O rest (i0 + 1) _ x (fun j hj => by
      have := h (j + 1) (by simpa using hj)
      rwa [show i0 + (j + 1) = i0 + 1 + j by omega] at this)]
    have hx : x ≠ O.ci_at i0 := by simpa using h 0 (by simp)
    simp [NodeMap.assign, hx]

theorem seed_inputs_at (O : Network) :
    ∀ (inputs : List Nat) (i0 : Nat) (f : NodeMap) (j n : Nat),
      i0 + inputs.length ≤ O.cis.length → inputs[j]? = some n →
      seed_inputs O inputs i0 f (O.ci_at (i0 + j)) = some (make_signal n)
  | [], _, _, _, _, _, h => by simp at h
  | n0 :: rest, i0, f, 0, n, hlen, h => by
    simp only [List.getElem?_cons_zero, Option.some.injEq] at h
    subst h
    simp only [List.length_cons] at hlen
    rw [seed_inputs, seed_inputs_other O rest (i0 + 1) _ _ (fun j hj heq => by
      have := ci_at_inj O (i0 + 0) (i0 + 1 + j) (by omega) (by omega) heq
      omega)]
    simp [NodeMap.assign]
  | n0 :: rest, i0, f, j + 1, n, hlen, h => by
    simp only [List.getElem?_cons_succ] at h
    simp only [List.length_cons] at hlen
    rw [seed_inputs, show i0 + (j + 1) = i0 + 1 + j by omega]
    exact seed_inputs_at O rest (i0 + 1) _ j n (by omega) h

theorem node_substitute_eq (old : Nat) (new : Signal) (nd : Node) :
    Node.substitute old new nd = Node.map_fanin (Signal.substitute old new) nd := by
  cases nd <;> rfl

theorem map_fanin_comp (g h : Signal → Signal) (nd : Node) :
    Node.map_fanin g (Node.map_fanin h nd) = Node.map_fanin (fun s => g (h s)) nd := by
  cases nd <;> simp [Node.map_fanin]

theorem apply_substitutions_eq :
    ∀ (t : Table) (N : Network),
      apply_substitutions t N =
        { nodes := N.nodes.map (Node.map_fanin t.rewire), outputs := N.outputs.map t.rewire }
  | [], N => by
    have h2 : Table.rewire [] = fun s => s := by
      funext s
      rfl
    have h1 : (Node.map_fanin fun s : Signal => s) = fun nd => nd := by
      funext nd
      cases nd <;> simp [Node.map_fanin]
    rw [apply_substitutions, h2, h1]
    simp
  | (old, new) :: rest, N => by
    rw [apply_substitutions, apply_substitutions_eq rest]
    simp only [Network.substitute_node, List.map_map]
    congr 1
    · apply List.map_congr_left
      intro nd _
      simp only [Function.comp, node_substitute_eq, map_fanin_comp]
      rfl

theorem rewire_not_key :
    ∀ (t : Table) (s : Signal), s.index ∉ t.map Prod.fst → t.rewire s = s
  | [], _, _ => rfl
  | (k0, v0) :: rest, s, h => by
    simp only [List.map_cons, List.mem_cons, not_or] at h
    rw [Table.rewire]
    have : Signal.substitute k0 v0 s = s := by simp [Signal.substitute, h.1]
    rw [this]
    exact rewire_not_key rest s h.2

theorem rewire_key :
    ∀ (t : Table) (k : Nat) (v : Signal) (c : Bool), (t.map Prod.fst).Nodup →
      (∀ e ∈ t, e.2.index ∉ t.map Prod.fst) → (k, v) ∈ t →
      t.rewire ⟨k, c⟩ = ⟨v.index, xor v.complement c⟩
  | [], _, _, _, _, _, h => by simp at h
  | (k0, v0) :: rest, k, v, c, hnd, hval, hmem => by
    simp only [List.map_cons, List.nodup_cons] at hnd
    rw [Table.rewire]
    rcases List.mem_cons.1 hmem with heq | hrest
    · simp only [Prod.mk.injEq] at heq
      obtain ⟨rfl, rfl⟩ := heq
      have h0 := hval (k, v) (List.mem_cons_self _ _)
      simp only [List.map_cons, List.mem_cons, not_or] at h0
      have : Signal.substitute k v ⟨k, c⟩ = ⟨v.index, xor v.complement c⟩ := by
        simp [Signal.substitute]
      rw [this]
      exact rewire_not_key rest _ h0.2
    · have hne : k ≠ k0 := by
        rintro rfl
        exact hnd.1 (List.mem_map.2 ⟨(k, v), hrest, rfl⟩)
      have : Signal.substitute k0 v0 ⟨k, c⟩ = ⟨k, c⟩ := by
        simp [Signal.substitute, hne]
      rw [this]
      apply rewire_key rest k v c hnd.2 _ hrest
      intro e he
      have := hval e (List.mem_cons_of_mem _ he)
      simp only [List.map_cons, List.mem_cons, not_or] at this
      exact this.2

theorem mem_assign (t : Table) (k : Nat) (v : Signal) (e : Nat × Signal) :
    e ∈ t.assign k v → e ∈ t ∨ e = (k, v) := by
  induction t with
  | nil => simp [Table.assign]
  | cons e0 t ih =>
    obtain ⟨k0, v0⟩ := e0
    unfold Table.assign
    by_cases h : k0 = k
    · subst h
      simp only [if_true, List.mem_cons]
      rintro (h | h)
      · exact Or.inr h
      · exact Or.inl (Or.inr h)
    · simp only [h, if_false, List.mem_cons]
      rintro (h | h)
      · exact Or.inl (Or.inl h)
      · rcases ih h with h | h
        · exact Or.inl (Or.inr h)
        · exact Or.inr h

theorem keys_assign_nodup (t : Table) (k : Nat) (v : Signal) (h : (t.map Prod.fst).Nodup) :
    ((t.assign k v).map Prod.fst).Nodup := by
  induction t with
  | nil => simp [Table.assign]
  | cons e0 t ih =>
    obtain ⟨k0, v0⟩ := e0
    simp only [List.map_cons, List.nodup_cons] at h
    unfold Table.assign
    by_cases hk : k0 = k
    · simp only [hk, if_true, List.map_cons, List.nodup_cons]
      rw [← hk]
      exact h
    · simp only [hk, if_false, List.map_cons, List.nodup_cons]
      refine ⟨?_, ih h.2⟩
      intro hmem
      rcases (mem_keys_assign t k v k0).1 hmem with h' | h'
      · exact h.1 h'
      · exact hk h'

theorem keys_calc_substitutions_nodup (opt : Network) (part : Window) (f : NodeMap) :
    ∀ (l : List Signal) (index : Nat) (t : Table), (t.map Prod.fst).Nodup →
      ((calc_substitutions opt part f l index t).map Prod.fst).Nodup
  | [], _, t, h => by simpa [calc_substitutions] using h
  | s0 :: rest, index, t, h => by
    unfold calc_substitutions
    apply keys_calc_substitutions_nodup opt part f rest
    split
    · exact keys_assign_nodup _ _ _ h
    · exact h

theorem mem_calc_substitutions (opt : Network) (part : Window) (f : NodeMap)
    (e : Nat × Signal) :
    ∀ (l : List Signal) (index : Nat) (t : Table),
      e ∈ calc_substitutions opt part f l index t →
        (e ∈ t ∨ ∃ j s, l[j]? = some s ∧ opt.is_constant (get_node s) = false ∧
          opt.is_ci (get_node s) = false ∧ e = (get_node (part.co_at (index + j)), resolve f s))
  | [], _, t, h => by
    simp only [calc_substitutions] at h
    exact Or.inl h
  | s0 :: rest, index, t, h => by
    unfold calc_substitutions at h
    simp only at h
    rcases mem_calc_substitutions opt part f e rest (index + 1) _ h with h' | ⟨j, s, hj, hc, hi, he⟩
    · by_cases hg : (!opt.is_constant (get_node s0) && !opt.is_ci (get_node s0)) = true
      · rw [if_pos hg] at h'
        rcases mem_assign _ _ _ _ h' with h'' | h''
        · exact Or.inl h''
        · simp only [Bool.and_eq_true, Bool.not_eq_true'] at hg
          refine Or.inr ⟨0, s0, by simp, hg.1, hg.2, ?_⟩
          rw [h'']
          rfl
      · rw [if_neg hg] at h'
        exact Or.inl h'
    · refine Or.inr ⟨j + 1, s, by simpa using hj, hc, hi, ?_⟩
      rw [he, show index + 1 + j = index + (j + 1) by omega]

theorem integrate_ntk (m : Manager) (partition_id : Int) (part : Window) (O : Network)
    (topo : List Nat) (hci : O.num_cis = part.num_cis) (hco : O.num_cos = part.num_cos)
    (hs : m.substitutions = []) :
    (m.integrate partition_id part O topo).1 = Outcome.done ∧
      (m.integrate partition_id part O topo).2.ntk = integrated m.ntk part O topo := by
  unfold Manager.integrate
  rw [if_neg (not_not.2 hci), if_neg (not_not.2 hco)]
  refine ⟨rfl, ?_⟩
  simp only [hs, clone_gates_eq, apply_substitutions_eq, integrated, new_table, old_to_new_map]

theorem node_kind (O : Network) (x : Nat) (hx : x < O.size) :
    O.is_constant x = true ∨ O.is_ci x = true ∨ O.is_gate x = true := by
  obtain ⟨nd, hnd⟩ : ∃ nd, O.nodes[x]? = some nd := by
    unfold Network.size at hx
    exact ⟨O.nodes[x], List.getElem?_eq_getElem hx⟩
  cases nd with
  | constant => exact Or.inl (node_constant hnd).1
  | ci => exact Or.inr (Or.inl (node_ci hnd).2.1)
  | gate fn fs => exact Or.inr (Or.inr (node_gate hnd).2.2.1)

theorem is_gate_not_ci (O : Network) (x : Nat) (h : O.is_gate x = true) : O.is_ci x = false :=
  (node_gate (is_gate_node h)).2.1

theorem is_gate_not_constant (O : Network) (x : Nat) (h : O.is_gate x = true) :
    O.is_constant x = false :=
  (node_gate (is_gate_node h)).1

theorem is_constant_not_gate (O : Network) (x : Nat) (h : O.is_constant x = true) :
    O.is_gate x = false :=
  (node_constant (is_constant_node h)).2.2.1

theorem is_constant_not_ci (O : Network) (x : Nat) (h : O.is_constant x = true) :
    O.is_ci x = false :=
  (node_constant (is_constant_node h)).2.1

theorem is_gate_lt (O : Network) (x : Nat) (h : O.is_gate x = true) : x < O.size := by
  by_contra hn
  have : O.nodes[x]? = none := List.getElem?_eq_none (by unfold Network.size at hn; omega)
  rw [(node_none this).2.2.1] at h
  simp at h

theorem resolve_eq (f : NodeMap) (c : Signal) :
    resolve f c = ⟨(f.get c.index).index, xor (f.get c.index).complement c.complement⟩ := by
  unfold resolve create_not
  cases c.complement <;> simp

section

variable {N : Network} {part : Window} {O : Network} {topo : List Nat}

theorem Setting.map_topo (h : Setting N part O topo) (j g : Nat) (hj : topo[j]? = some g) :
    old_to_new_map N part O topo g = some (make_signal (N.size + j)) :=
  clone_map_mem topo N.size _ j g h.topo_opt.1 hj

theorem Setting.map_ci (h : Setting N part O topo) (j n : Nat) (hj : part.inputs[j]? = some n) :
    old_to_new_map N part O topo (O.ci_at j) = some (make_signal n) := by
  have hjlt : j < part.inputs.length := by
    by_contra hge
    rw [List.getElem?_eq_none (by omega)] at hj
    simp at hj
  have hlen : O.cis.length = part.inputs.length := h.count_cis
  have hci : O.is_ci (O.ci_at j) = true := ci_at_is_ci O j (by omega)
  have hnot : O.ci_at j ∉ topo := by
    intro hmem
    have := is_gate_not_ci O _ (h.topo_opt.2.1 _ hmem)
    rw [hci] at this
    simp at this
  unfold old_to_new_map
  rw [clone_map_not_mem topo _ _ _ hnot]
  have := seed_inputs_at O part.inputs 0 (fun _ => none) j n (by omega) hj
  simpa using this

theorem Setting.map_constant (h : Setting N part O topo) (x : Nat)
    (hx : O.is_constant x = true) : old_to_new_map N part O topo x = none := by
  have hnot : x ∉ topo := by
    intro hmem
    have := is_gate_not_constant O _ (h.topo_opt.2.1 _ hmem)
    rw [hx] at this
    simp at this
  unfold old_to_new_map
  rw [clone_map_not_mem topo _ _ _ hnot, seed_inputs_other]
  intro j hj heq
  have hlen : O.cis.length = part.inputs.length := h.count_cis
  have := ci_at_is_ci O (0 + j) (by omega)
  rw [← heq, is_constant_not_ci O x hx] at this
  simp at this

theorem Setting.resolve_topo (h : Setting N part O topo) (j : Nat) (c : Signal)
    (hj : topo[j]? = some c.index) :
    resolve (old_to_new_map N part O topo) c = ⟨N.size + j, c.complement⟩ := by
  rw [resolve_eq]
  simp [NodeMap.get, h.map_topo j c.index hj, make_signal]

theorem Setting.resolve_ci (h : Setting N part O topo) (j n : Nat) (c : Signal)
    (hj : part.inputs[j]? = some n) (hc : c.index = O.ci_at j) :
    resolve (old_to_new_map N part O topo) c = ⟨n, c.complement⟩ := by
  rw [resolve_eq, hc]
  simp [NodeMap.get, h.map_ci j n hj, make_signal]

theorem Setting.resolve_constant (h : Setting N part O topo) (c : Signal)
    (hc : O.is_constant c.index = true) :
    resolve (old_to_new_map N part O topo) c = ⟨0, c.complement⟩ := by
  rw [resolve_eq]
  simp [NodeMap.get, h.map_constant c.index hc]

/-- Every entry of the table maps a window output node to the clone of the gate that drives
the matching output of the replacement. -/
theorem Setting.table_entry (h : Setting N part O topo) (e : Nat × Signal)
    (he : e ∈ new_table N part O topo) :
    ∃ i so j, O.outputs[i]? = some so ∧ topo[j]? = some so.index ∧
      get_node (part.co_at i) < N.size ∧
      e = (get_node (part.co_at i), ⟨N.size + j, so.complement⟩) := by
  unfold new_table at he
  rcases mem_calc_substitutions O part _ e O.outputs 0 [] he with h0 | ⟨i, so, hi, hc, hci, heq⟩
  · simp at h0
  · have hmem : so ∈ O.outputs := List.mem_iff_getElem?.2 ⟨i, hi⟩
    have hlt : so.index < O.size := h.wf_opt.2.2 so hmem
    have hgate : O.is_gate so.index = true := by
      rcases node_kind O so.index hlt with h1 | h1 | h1
      · rw [show get_node so = so.index from rfl, h1] at hc; simp at hc
      · rw [show get_node so = so.index from rfl, h1] at hci; simp at hci
      · exact h1
    obtain ⟨j, hjlt, hj⟩ := List.getElem_of_mem (h.topo_opt.2.2.2 so hmem hgate)
    have hj' : topo[j]? = some so.index := by rw [List.getElem?_eq_getElem hjlt, hj]
    have hilt : i < part.outputs.length := by
      have h1 : i < O.outputs.length := by
        by_contra hge
        rw [List.getElem?_eq_none (by omega)] at hi
        simp at hi
      have h2 : O.outputs.length = part.outputs.length := h.count_cos
      omega
    refine ⟨i, so, j, hi, hj', ?_, ?_⟩
    · unfold Window.co_at
      rw [List.getD_eq_getElem _ _ hilt]
      exact h.outputs_lt _ (List.getElem_mem _)
    · rw [heq, Nat.zero_add, h.resolve_topo j so hj']

theorem Setting.key_lt (h : Setting N part O topo) (k : Nat)
    (hk : k ∈ (new_table N part O topo).map Prod.fst) : k < N.size := by
  obtain ⟨e, he, rfl⟩ := List.mem_map.1 hk
  obtain ⟨i, so, j, _, _, hlt, heq⟩ := h.table_entry e he
  rw [heq]
  exact hlt

theorem Setting.rewire_new (h : Setting N part O topo) (s : Signal) (hs : N.size ≤ s.index) :
    (new_table N part O topo).rewire s = s := by
  apply rewire_not_key
  intro hk
  have := h.key_lt _ hk
  omega

/-- A signal of the parent network is left alone by the table, or it is a window output and
is rewired to the clone of the gate that drives the matching output of the replacement. -/
theorem Setting.rewire_old (h : Setting N part O topo) (s : Signal) :
    (new_table N part O topo).rewire s = s ∨
      ∃ i so j, O.outputs[i]? = some so ∧ topo[j]? = some so.index ∧
        get_node (part.co_at i) = s.index ∧
        (new_table N part O topo).rewire s = ⟨N.size + j, xor so.complement s.complement⟩ := by
  by_cases hk : s.index ∈ (new_table N part O topo).map Prod.fst
  · right
    obtain ⟨e, he, hes⟩ := List.mem_map.1 hk
    obtain ⟨i, so, j, hi, hj, _, heq⟩ := h.table_entry e he
    refine ⟨i, so, j, hi, hj, ?_, ?_⟩
    · rw [← hes, heq]
    · have hnd : ((new_table N part O topo).map Prod.fst).Nodup :=
        keys_calc_substitutions_nodup O part _ O.outputs 0 [] (by simp)
      have hval : ∀ e' ∈ new_table N part O topo,
          e'.2.index ∉ (new_table N part O topo).map Prod.fst := by
        intro e' he' hmem
        obtain ⟨_, _, j', _, _, _, heq'⟩ := h.table_entry e' he'
        have := h.key_lt _ hmem
        rw [heq'] at this
        simp at this
      have hmem : (s.index, (⟨N.size + j, so.complement⟩ : Signal)) ∈ new_table N part O topo := by
        rw [← hes, heq]
        rw [heq] at he
        exact he
      have := rewire_key _ s.index ⟨N.size + j, so.complement⟩ s.complement hnd hval hmem
      simpa using this
  · exact Or.inl (rewire_not_key _ s hk)

theorem integrated_size (N : Network) (part : Window) (O : Network) (topo : List Nat) :
    (integrated N part O topo).size = N.size + topo.length := by
  simp [integrated, Network.size, clone_nodes_length]

theorem integrated_node_old (N : Network) (part : Window) (O : Network) (topo : List Nat)
    (n : Nat) (hn : n < N.size) :
    (integrated N part O topo).nodes[n]? =
      (N.nodes[n]?).map (Node.map_fanin (new_table N part O topo).rewire) := by
  unfold Network.size at hn
  simp only [integrated, List.getElem?_map]
  rw [List.getElem?_append_left hn]

theorem Setting.integrated_node_new (h : Setting N part O topo) (j g : Nat)
    (hj : topo[j]? = some g) :
    (integrated N part O topo).nodes[N.size + j]? =
      some (Node.gate (O.gate_fn g) ((O.fanin g).map
        (fun c => (new_table N part O topo).rewire (resolve (old_to_new_map N part O topo) c)))) := by
  have hget := clone_nodes_get O topo N.size (seed_inputs O part.inputs 0 (fun _ => none)) j g
    (topo_order_fanin_not_later O topo h.topo_opt) hj
  simp only [integrated, List.getElem?_map]
  rw [List.getElem?_append_right (by unfold Network.size; omega)]
  rw [show N.size + j - N.nodes.length = j by unfold Network.size; omega, hget]
  simp [Node.map_fanin, old_to_new_map]

end

theorem merged_old {α : Type} (N : Network) (topo : List Nat) (v vO : Nat → α) (n : Nat)
    (hn : n < N.size) : merged N topo v vO n = v n := by
  simp [merged, hn]

theorem merged_new {α : Type} (N : Network) (topo : List Nat) (v vO : Nat → α) (j g : Nat)
    (hj : topo[j]? = some g) : merged N topo v vO (N.size + j) = vO g := by
  simp [merged, List.getD_eq_getElem?_getD, hj]

theorem getElem?_lt_of_some {α : Type} {l : List α} {j : Nat} {a : α} (h : l[j]? = some a) :
    j < l.length := by
  by_contra hge
  rw [List.getElem?_eq_none (by omega)] at h
  simp at h

section

variable {N : Network} {part : Window} {O : Network} {topo : List Nat}

theorem integrated_old_accessors (N : Network) (part : Window) (O : Network) (topo : List Nat)
    (n : Nat) (hn : n < N.size) :
    (integrated N part O topo).is_constant n = N.is_constant n ∧
      (integrated N part O topo).is_ci n = N.is_ci n ∧
      (integrated N part O topo).is_gate n = N.is_gate n ∧
      (integrated N part O topo).gate_fn n = N.gate_fn n ∧
      (integrated N part O topo).fanin n =
        (N.fanin n).map (new_table N part O topo).rewire := by
  have hnode := integrated_node_old N part O topo n hn
  cases hnd : N.nodes[n]? with
  | none =>
    rw [hnd] at hnode
    simp [Network.is_constant, Network.is_ci, Network.is_gate, Network.gate_fn, Network.fanin,
      hnd, hnode]
  | some nd =>
    rw [hnd] at hnode
    cases nd <;>
      simp [Network.is_constant, Network.is_ci, Network.is_gate, Network.gate_fn, Network.fanin,
        hnd, hnode, Node.map_fanin]

theorem Setting.integrated_new_accessors (h : Setting N part O topo) (j g : Nat)
    (hj : topo[j]? = some g) :
    (integrated N part O topo).is_constant (N.size + j) = false ∧
      (integrated N part O topo).is_ci (N.size + j) = false ∧
      (integrated N part O topo).is_gate (N.size + j) = true ∧
      (integrated N part O topo).gate_fn (N.size + j) = O.gate_fn g ∧
      (integrated N part O topo).fanin (N.size + j) = (O.fanin g).map
        (fun c => (new_table N part O topo).rewire (resolve (old_to_new_map N part O topo) c)) := by
  have hnode := h.integrated_node_new j g hj
  obtain ⟨h1, h2, h3, h4, h5⟩ := node_gate hnode
  exact ⟨h1, h2, h3, h5, h4⟩

theorem integrated_beyond (N : Network) (part : Window) (O : Network) (topo : List Nat)
    (n : Nat) (hn : N.size + topo.length ≤ n) :
    (integrated N part O topo).is_constant n = false ∧
      (integrated N part O topo).is_ci n = false ∧
      (integrated N part O topo).is_gate n = false ∧
      (integrated N part O topo).fanin n = [] := by
  apply node_none
  apply List.getElem?_eq_none
  have := integrated_size N part O topo
  unfold Network.size at this hn
  omega

/-- The value of a parent signal after rewiring, under the merged valuation, is its value
in the parent network. -/
theorem Setting.rewired_value (h : Setting N part O topo) (v vO : Nat → Bool)
    (hout : ∀ i so, O.outputs[i]? = some so → O.is_gate so.index = true →
      Signal.value vO so = v (get_node (part.co_at i)))
    (s : Signal) (hs : s.index < N.size) :
    Signal.value (merged N topo v vO) ((new_table N part O topo).rewire s) =
      Signal.value v s := by
  rcases h.rewire_old s with heq | ⟨i, so, j, hi, hj, hk, heq⟩
  · rw [heq]
    simp [Signal.value, merged_old N topo v vO _ hs]
  · rw [heq]
    have hgate : O.is_gate so.index = true := h.topo_opt.2.1 _ (List.getElem?_mem hj)
    have hval := hout i so hi hgate
    simp only [Signal.value] at hval ⊢
    rw [merged_new N topo v vO j so.index hj, ← hk, ← hval]
    cases vO so.index <;> cases so.complement <;> cases s.complement <;> rfl

/-- The fan-in handed to a clone: a rewired parent signal, the constant or a window input,
or the clone of an earlier gate. -/
theorem Setting.child_cases (h : Setting N part O topo) (j g : Nat) (hj : topo[j]? = some g)
    (c : Signal) (hc : c ∈ O.fanin g) :
    (O.is_constant c.index = true ∧
      (new_table N part O topo).rewire (resolve (old_to_new_map N part O topo) c) =
        (new_table N part O topo).rewire ⟨0, c.complement⟩) ∨
    (∃ i n, part.inputs[i]? = some n ∧ c.index = O.ci_at i ∧ n < N.size ∧
      (new_table N part O topo).rewire (resolve (old_to_new_map N part O topo) c) =
        (new_table N part O topo).rewire ⟨n, c.complement⟩) ∨
    (∃ k, topo[k]? = some c.index ∧
      (new_table N part O topo).rewire (resolve (old_to_new_map N part O topo) c) =
        ⟨N.size + k, c.complement⟩) := by
  have hg : O.is_gate g = true := h.topo_opt.2.1 _ (List.getElem?_mem hj)
  have hclt : c.index < O.size := h.wf_opt.2.1 g (is_gate_lt O g hg) c hc
  rcases node_kind O c.index hclt with hk | hk | hk
  · exact Or.inl ⟨hk, by rw [h.resolve_constant c hk]⟩
  · obtain ⟨i, hi, hci⟩ := is_ci_exists_ci_at O c.index hk
    have hlen : O.cis.length = part.inputs.length := h.count_cis
    have hilt : i < part.inputs.length := by omega
    have hin : part.inputs[i]? = some part.inputs[i] := List.getElem?_eq_getElem hilt
    exact Or.inr (Or.inl ⟨i, part.inputs[i], hin, hci.symm,
      h.inputs_lt _ (List.getElem_mem _), by rw [h.resolve_ci i _ c hin hci.symm]⟩)
  · have hjlt := getElem?_lt_of_some hj
    have hgd : topo.getD j 0 = g := by rw [List.getD_eq_getElem?_getD, hj]; rfl
    have htake := h.topo_opt.2.2.1 j hjlt c (by rw [hgd]; exact hc) hk
    obtain ⟨k, hklt, hk'⟩ := List.getElem_of_mem (List.mem_of_mem_take htake)
    have hk'' : topo[k]? = some c.index := by rw [List.getElem?_eq_getElem hklt, hk']
    exact Or.inr (Or.inr ⟨k, hk'', by rw [h.resolve_topo k c hk'', h.rewire_new _ (by simp)]⟩)

theorem Setting.zero_lt (h : Setting N part O topo) : 0 < N.size := by
  have := h.wf_parent.1
  by_contra hn
  have hnone : N.nodes[0]? = none := List.getElem?_eq_none (by unfold Network.size at hn; omega)
  rw [(node_none hnone).1] at this
  simp at this

/-- The value of a resolved and rewired fan-in of a clone, under the merged valuation, is
the value of the fan-in in the replacement. -/
theorem Setting.child_value (h : Setting N part O topo) (interp : Nat → List Bool → Bool)
    (envO v vO : Nat → Bool) (hvO : O.Consistent interp envO vO)
    (hv0 : v 0 = false)
    (hin : ∀ j n, part.inputs[j]? = some n → vO (O.ci_at j) = v n)
    (hout : ∀ i so, O.outputs[i]? = some so → O.is_gate so.index = true →
      Signal.value vO so = v (get_node (part.co_at i)))
    (j g : Nat) (hj : topo[j]? = some g) (c : Signal) (hc : c ∈ O.fanin g) :
    Signal.value (merged N topo v vO)
      ((new_table N part O topo).rewire (resolve (old_to_new_map N part O topo) c)) =
      Signal.value vO c := by
  rcases h.child_cases j g hj c hc with ⟨hk, heq⟩ | ⟨i, n, hi, hci, hn, heq⟩ | ⟨k, hk, heq⟩
  · rw [heq, h.rewired_value v vO hout ⟨0, c.complement⟩ h.zero_lt]
    simp [Signal.value, hv0, (hvO c.index).1 hk]
  · rw [heq, h.rewired_value v vO hout ⟨n, c.complement⟩ hn]
    simp [Signal.value, ← hin i n hi, hci]
  · rw [heq]
    simp [Signal.value, merged_new N topo v vO k c.index hk]

/-- The merged valuation is consistent with the integrated network. -/
theorem Setting.merged_consistent (h : Setting N part O topo)
    (interp : Nat → List Bool → Bool) (env envO v vO : Nat → Bool)
    (hv : N.Consistent interp env v) (hvO : O.Consistent interp envO vO)
    (hin : ∀ j n, part.inputs[j]? = some n → vO (O.ci_at j) = v n)
    (hout : ∀ i so, O.outputs[i]? = some so → O.is_gate so.index = true →
      Signal.value vO so = v (get_node (part.co_at i))) :
    (integrated N part O topo).Consistent interp env (merged N topo v vO) := by
  have hv0 : v 0 = false := (hv 0).1 h.wf_parent.1
  intro n
  by_cases hn : n < N.size
  · obtain ⟨h1, h2, h3, h4, h5⟩ := integrated_old_accessors N part O topo n hn
    rw [h1, h2, h3, h4, h5, merged_old N topo v vO n hn]
    refine ⟨(hv n).1, (hv n).2.1, ?_⟩
    intro hg
    rw [(hv n).2.2 hg, List.map_map]
    congr 1
    apply List.map_congr_left
    intro s hs
    exact (h.rewired_value v vO hout s (h.wf_parent.2.1 n hn s hs)).symm
  · by_cases hn2 : n < N.size + topo.length
    · obtain ⟨j, rfl⟩ : ∃ j, n = N.size + j := ⟨n - N.size, by omega⟩
      have hjlt : j < topo.length := by omega
      have hj : topo[j]? = some topo[j] := List.getElem?_eq_getElem hjlt
      obtain ⟨h1, h2, h3, h4, h5⟩ := h.integrated_new_accessors j _ hj
      rw [h1, h2, h3, h4, h5, merged_new N topo v vO j _ hj]
      refine ⟨by simp, by simp, ?_⟩
      intro _
      have hg : O.is_gate topo[j] = true := h.topo_opt.2.1 _ (List.getElem_mem _)
      rw [(hvO _).2.2 hg, List.map_map]
      congr 1
      apply List.map_congr_left
      intro c hc
      exact (h.child_value interp envO v vO hvO hv0 hin hout j _ hj c hc).symm
    · obtain ⟨h1, h2, h3, _⟩ := integrated_beyond N part O topo n (by omega)
      rw [h1, h2, h3]
      simp

end

section

variable {N : Network} {part : Window} {O : Network} {topo : List Nat}

theorem Setting.rewired_lt (h : Setting N part O topo) (s : Signal) (hs : s.index < N.size) :
    ((new_table N part O topo).rewire s).index < N.size + topo.length := by
  rcases h.rewire_old s with heq | ⟨i, so, j, _, hj, _, heq⟩
  · rw [heq]; omega
  · rw [heq]
    have := getElem?_lt_of_some hj
    simp only
    omega

/-- The network left by `integrate` is well-formed. -/
theorem Setting.integrated_wf (h : Setting N part O topo) :
    (integrated N part O topo).WellFormed := by
  refine ⟨?_, ?_, ?_⟩
  · rw [(integrated_old_accessors N part O topo 0 h.zero_lt).1]
    exact h.wf_parent.1
  · intro n hn s hs
    rw [integrated_size] at hn ⊢
    by_cases hold : n < N.size
    · rw [(integrated_old_accessors N part O topo n hold).2.2.2.2] at hs
      obtain ⟨s0, hs0, rfl⟩ := List.mem_map.1 hs
      exact h.rewired_lt s0 (h.wf_parent.2.1 n hold s0 hs0)
    · obtain ⟨j, rfl⟩ : ∃ j, n = N.size + j := ⟨n - N.size, by omega⟩
      have hjlt : j < topo.length := by omega
      have hj : topo[j]? = some topo[j] := List.getElem?_eq_getElem hjlt
      rw [(h.integrated_new_accessors j _ hj).2.2.2.2] at hs
      obtain ⟨c, hc, rfl⟩ := List.mem_map.1 hs
      rcases h.child_cases j _ hj c hc with ⟨_, heq⟩ | ⟨_, n, _, _, hn', heq⟩ | ⟨k, hk, heq⟩
      · rw [heq]
        exact h.rewired_lt _ h.zero_lt
      · rw [heq]
        exact h.rewired_lt _ hn'
      · rw [heq]
        have := getElem?_lt_of_some hk
        simp only
        omega
  · intro s hs
    rw [integrated_size]
    simp only [integrated] at hs
    obtain ⟨s0, hs0, rfl⟩ := List.mem_map.1 hs
    exact h.rewired_lt s0 (h.wf_parent.2.2 s0 hs0)

/-- When the network left by `integrate` is acyclic, and the replacement has a consistent
valuation that agrees with the parent network on the window inputs and outputs, every
primary output keeps its value. -/
theorem Setting.outputs_preserved (h : Setting N part O topo)
    (interp : Nat → List Bool → Bool) (env envO vO : Nat → Bool)
    (hac : N.Acyclic) (hac' : (integrated N part O topo).Acyclic)
    (hvO : O.Consistent interp envO vO)
    (hin : ∀ j n, part.inputs[j]? = some n → vO (O.ci_at j) = N.valuation interp env n)
    (hout : ∀ i so, O.outputs[i]? = some so → O.is_gate so.index = true →
      Signal.value vO so = N.valuation interp env (get_node (part.co_at i)))
    (i : Nat) (hi : i < N.outputs.length) :
    ∃ b, N.output_value interp env i = some b ∧
      (integrated N part O topo).output_value interp env i = some b := by
  have hv := valuation_consistent interp N env h.wf_parent hac
  have hu := h.merged_consistent interp env envO (N.valuation interp env) vO hv hvO hin hout
  have hslt : N.outputs[i].index < N.size := h.wf_parent.2.2 _ (List.getElem_mem _)
  refine ⟨Signal.value (N.valuation interp env) N.outputs[i], ?_, ?_⟩
  · unfold Network.output_value
    rw [List.getElem?_eq_getElem hi]
    exact simulate_signal_eq_value interp N env _ h.wf_parent hac hv _ hslt
  · have hout' : (integrated N part O topo).outputs[i]? =
        some ((new_table N part O topo).rewire N.outputs[i]) := by
      simp [integrated, List.getElem?_map, List.getElem?_eq_getElem hi]
    unfold Network.output_value
    rw [hout']
    simp only
    rw [simulate_signal_eq_value interp _ env _ h.integrated_wf hac' hu _
      (by rw [integrated_size]; exact h.rewired_lt _ hslt),
      h.rewired_value _ vO hout _ hslt]

end

theorem grounded_ranked (N : Network) (rank : Nat → Nat) (hr : N.Ranked rank) :
    N.Ranked (grounded_rank N rank) := by
  intro n hn s hs
  have hgate : N.is_constant n = false := by
    cases hc : N.is_constant n with
    | false => rfl
    | true =>
      rw [(node_constant (is_constant_node hc)).2.2.2] at hs
      simp at hs
  have := hr n hn s hs
  unfold grounded_rank
  rw [hgate]
  simp only [Bool.false_eq_true, if_false]
  split
  · omega
  · omega

section

variable {N : Network} {part : Window} {O : Network} {topo : List Nat} {φ : Nat → Nat}

theorem Identical.input_eq (hid : Identical N part O φ) (j n : Nat)
    (hj : part.inputs[j]? = some n) : φ (O.ci_at j) = n := by
  have hjlt := getElem?_lt_of_some hj
  rw [hid.input_map j hjlt, List.getD_eq_getElem?_getD, hj]
  rfl

theorem Identical.output_eq (hid : Identical N part O φ) (i : Nat) (so : Signal)
    (hi : O.outputs[i]? = some so) : part.co_at i = ⟨φ so.index, so.complement⟩ := by
  have hilt := getElem?_lt_of_some hi
  rw [hid.output_map i hilt, List.getD_eq_getElem?_getD, hi]
  rfl

/-- The renaming turns a consistent valuation of the parent network into one of the
replacement. -/
theorem Identical.renamed_consistent (hid : Identical N part O φ)
    (hgates : ∀ g ∈ part.gates, N.is_gate g = true)
    (interp : Nat → List Bool → Bool) (env v : Nat → Bool) (hv : N.Consistent interp env v) :
    O.Consistent interp (fun x => v (φ x)) (fun x => v (φ x)) := by
  intro x
  refine ⟨?_, fun _ => rfl, ?_⟩
  · intro hc
    have hx : x < O.size := by
      by_contra hn
      have : O.nodes[x]? = none := List.getElem?_eq_none (by unfold Network.size at hn; omega)
      rw [(node_none this).1] at hc
      simp at hc
    exact (hv (φ x)).1 (hid.constant_map x hx hc)
  · intro hg
    obtain ⟨hmem, hfn, hfan⟩ := hid.gate_map x (is_gate_lt O x hg) hg
    simp only
    rw [(hv (φ x)).2.2 (hgates _ hmem), hfn, hfan, List.map_map]
    rfl

/-- With an identical replacement the network left by `integrate` is ranked. -/
theorem Setting.identity_ranked (h : Setting N part O topo) (hid : Identical N part O φ)
    (hgates : ∀ g ∈ part.gates, N.is_gate g = true) (rank : Nat → Nat) (hr : N.Ranked rank) :
    (integrated N part O topo).Ranked
      (merged N topo (grounded_rank N rank) (fun g => grounded_rank N rank (φ g))) := by
  have hr2 := grounded_ranked N rank hr
  have hrew : ∀ s : Signal, s.index < N.size →
      merged N topo (grounded_rank N rank) (fun g => grounded_rank N rank (φ g))
        ((new_table N part O topo).rewire s).index = grounded_rank N rank s.index := by
    intro s hs
    rcases h.rewire_old s with heq | ⟨i, so, j, hi, hj, hk, heq⟩
    · rw [heq, merged_old _ _ _ _ _ hs]
    · rw [heq]
      simp only
      rw [merged_new _ _ _ _ j so.index hj, ← hk, hid.output_eq i so hi]
      rfl
  intro n hn s hs
  rw [integrated_size] at hn
  by_cases hold : n < N.size
  · rw [(integrated_old_accessors N part O topo n hold).2.2.2.2] at hs
    obtain ⟨s0, hs0, rfl⟩ := List.mem_map.1 hs
    rw [hrew s0 (h.wf_parent.2.1 n hold s0 hs0), merged_old _ _ _ _ _ hold]
    exact hr2 n hold s0 hs0
  · obtain ⟨j, rfl⟩ : ∃ j, n = N.size + j := ⟨n - N.size, by omega⟩
    have hjlt : j < topo.length := by omega
    have hj : topo[j]? = some topo[j] := List.getElem?_eq_getElem hjlt
    rw [(h.integrated_new_accessors j _ hj).2.2.2.2] at hs
    obtain ⟨c, hc, rfl⟩ := List.mem_map.1 hs
    rw [merged_new _ _ _ _ j _ hj]
    have hg : O.is_gate topo[j] = true := h.topo_opt.2.1 _ (List.getElem_mem _)
    obtain ⟨hmem, _, hfan⟩ := hid.gate_map _ (is_gate_lt O _ hg) hg
    have hNg : N.is_gate (φ topo[j]) = true := hgates _ hmem
    have hedge : grounded_rank N rank (φ c.index) < grounded_rank N rank (φ topo[j]) := by
      apply hr2 (φ topo[j]) (is_gate_lt N _ hNg) ⟨φ c.index, c.complement⟩
      rw [hfan]
      exact List.mem_map.2 ⟨c, hc, rfl⟩
    rcases h.child_cases j _ hj c hc with ⟨hk, heq⟩ | ⟨i, n, hi, hci, hn', heq⟩ | ⟨k, hk, heq⟩
    · rw [heq, hrew ⟨0, c.complement⟩ h.zero_lt]
      have h0 : grounded_rank N rank 0 = 0 := by simp [grounded_rank, h.wf_parent.1]
      have hpos : 0 < grounded_rank N rank (φ topo[j]) := by
        simp [grounded_rank, is_gate_not_constant N _ hNg]
      simp only
      omega
    · rw [heq, hrew ⟨n, c.complement⟩ hn']
      simp only
      rw [← hid.input_eq i n hi, ← hci]
      exact hedge
    · rw [heq]
      simp only
      rw [merged_new _ _ _ _ k c.index hk]
      exact hedge

end

/-! ### Facts on `partition` used by the round trip -/

theorem partition_inputs_lt (m : Manager) (id : Int) (hwf : m.ntk.WellFormed) :
    ∀ n ∈ (m.partition id).1.inputs, n < m.ntk.size := by
  intro n hn
  rcases (mem_partition_inputs m id n).1 hn with ⟨hci, _⟩ | ⟨_, _, g, hg, f, hf, rfl⟩
  · exact is_ci_lt _ _ hci
  · exact hwf.2.1 g ((mem_partition_gates m id g).1 hg).1 f hf

theorem partition_outputs_lt (m : Manager) (id : Int) :
    ∀ s ∈ (m.partition id).1.outputs, s.index < m.ntk.size :=
  fun s hs => ((mem_partition_outputs m id s).1 hs).2.1

theorem partition_gates_are_gates (m : Manager) (id : Int) :
    ∀ g ∈ (m.partition id).1.gates, m.ntk.is_gate g = true := by
  intro g hg
  obtain ⟨hlt, _, hc, hci⟩ := (mem_partition_gates m id g).1 hg
  rcases node_kind m.ntk g hlt with h | h | h
  · rw [h] at hc; simp at hc
  · rw [h] at hci; simp at hci
  · exact h

theorem partition_co_at_complement (m : Manager) (id : Int) (i : Nat) :
    ((m.partition id).1.co_at i).complement = false := by
  unfold Window.co_at
  by_cases hi : i < (m.partition id).1.outputs.length
  · rw [List.getD_eq_getElem _ _ hi]
    exact ((mem_partition_outputs m id _).1 (List.getElem_mem _)).1
  · rw [List.getD_eq_default _ _ (by omega)]

theorem partition_setting (N : Network) (P : PartitionMap) (part_num : Int) (id : Int)
    (O : Network) (topo : List Nat) (hwf : N.WellFormed) (hwfO : O.WellFormed)
    (htopo : TopoOrder O topo)
    (hci : O.num_cis = ((Manager.mk_junior N P part_num).partition id).1.num_cis)
    (hco : O.num_cos = ((Manager.mk_junior N P part_num).partition id).1.num_cos) :
    Setting N ((Manager.mk_junior N P part_num).partition id).1 O topo :=
  { wf_parent := hwf
    wf_opt := hwfO
    topo_opt := htopo
    count_cis := hci
    count_cos := hco
    inputs_lt := partition_inputs_lt (Manager.mk_junior N P part_num) id hwf
    outputs_lt := partition_outputs_lt (Manager.mk_junior N P part_num) id }

theorem partition_outputs_index_increasing (m : Manager) (id : Int) :
    ((m.partition id).1.outputs.map get_node).Pairwise (fun a b => a < b) := by
  rw [List.pairwise_map]
  have hs := partition_outputs_sorted m id
  have hc : ∀ s ∈ (m.partition id).1.outputs, s.complement = false :=
    fun s hs => ((mem_partition_outputs m id s).1 hs).1
  refine (List.Pairwise.and_mem.1 hs).imp ?_
  intro a b h
  obtain ⟨ha, hb, hlt⟩ := h
  have h1 := hc a ha
  have h2 := hc b hb
  simp only [Signal.data, h1, h2] at hlt
  simp only [get_node]
  omega

theorem scan_gates_filter (m : Manager) (id : Int) :
    (m.scan id).gates = m.ntk.node_list.filter
      (fun n => !(m.partitions.get n != id || m.ntk.is_constant n) && !m.ntk.is_ci n) := by
  rw [scan_gates]
  induction m.ntk.node_list with
  | nil => rfl
  | cons a l ih =>
    rw [List.flatMap_cons, ih, List.filter_cons]
    unfold Manager.visit_gates
    by_cases h1 : (m.partitions.get a != id || m.ntk.is_constant a) = true
    · simp [h1]
    · by_cases h2 : m.ntk.is_ci a = true
      · simp [h1, h2]
      · simp [h1, h2]

theorem partition_gates_nodup (m : Manager) (id : Int) : (m.partition id).1.gates.Nodup := by
  simp only [Manager.partition]
  rw [scan_gates_filter]
  exact List.Nodup.filter _ (List.nodup_range _)

theorem clone_map_mem_exists :
    ∀ (topo : List Nat) (base : Nat) (f : NodeMap) (g : Nat), g ∈ topo →
      ∃ j, j < topo.length ∧ clone_map topo base f g = some (make_signal (base + j))
  | [], _, _, _, h => by simp at h
  | g0 :: rest, base, f, g, h => by
    by_cases hr : g ∈ rest
    · obtain ⟨j, hj, heq⟩ := clone_map_mem_exists rest (base + 1) (f.assign g0 (make_signal base)) g hr
      refine ⟨j + 1, by simpa using hj, ?_⟩
      rw [clone_map, heq]
      congr 2
      omega
    · have hg : g = g0 := by
        rcases List.mem_cons.1 h with h | h
        · exact h
        · exact absurd h hr
      subst hg
      refine ⟨0, by simp, ?_⟩
      rw [clone_map, clone_map_not_mem rest _ _ g hr]
      simp [NodeMap.assign]

theorem assign_partitions_length (f : NodeMap) (id : Int) :
    ∀ (l : List Nat) (p : PartitionMap), (assign_partitions f id l p).length = p.length
  | [], _ => rfl
  | g :: rest, p => by
    rw [assign_partitions, assign_partitions_length f id rest, List.length_set]

theorem assign_partitions_other (f : NodeMap) (id : Int) (k : Nat) :
    ∀ (l : List Nat) (p : PartitionMap), (∀ g ∈ l, get_node (f.get g) ≠ k) →
      (assign_partitions f id l p).getD k 0 = p.getD k 0
  | [], _, _ => rfl
  | g :: rest, p, h => by
    rw [assign_partitions, assign_partitions_other f id k rest _
      (fun g' hg' => h g' (List.mem_cons_of_mem _ hg'))]
    have hne := h g (List.mem_cons_self _ _)
    rw [List.getD_eq_getElem?_getD, List.getD_eq_getElem?_getD, List.getElem?_set_ne hne]

theorem resize_length (p : PartitionMap) (size : Nat) : (p.resize size).length = size := by
  unfold PartitionMap.resize
  simp
  omega

theorem resize_getD (p : PartitionMap) (size n : Nat) (hn : n < size) :
    (p.resize size).getD n 0 = p.getD n 0 := by
  unfold PartitionMap.resize
  rw [List.getD_eq_getElem?_getD, List.getD_eq_getElem?_getD, List.getElem?_take_of_lt hn]
  by_cases hp : n < p.length
  · rw [List.getElem?_append_left hp]
  · rw [List.getElem?_append_right (by omega), List.getElem?_eq_none (l := p) (by omega)]
    by_cases h2 : n - p.length < size - p.length
    · rw [List.getElem?_replicate_of_lt h2]
      rfl
    · rw [List.getElem?_eq_none (by simpa using h2)]

theorem apply_substitutions_size (t : Table) (N : Network) :
    (apply_substitutions t N).size = N.size := by
  rw [apply_substitutions_eq]
  simp [Network.size]

theorem clone_gates_size (opt : Network) (topo : List Nat) (N : Network) (f : NodeMap) :
    (clone_gates opt topo N f).1.size = N.size + topo.length := by
  rw [clone_gates_eq]
  simp [Network.size, clone_nodes_length]

theorem integrate_done (m : Manager) (partition_id : Int) (part : Window) (opt : Network)
    (opt_topo : List Nat) (hci : opt.num_cis = part.num_cis) (hco : opt.num_cos = part.num_cos) :
    m.integrate partition_id part opt opt_topo =
      (Outcome.done,
       { ntk := apply_substitutions
            (calc_substitutions opt part
              (clone_gates opt opt_topo m.ntk (seed_inputs opt part.inputs 0 (fun _ => none))).2
              opt.outputs 0 m.substitutions)
            (clone_gates opt opt_topo m.ntk (seed_inputs opt part.inputs 0 (fun _ => none))).1,
         partitions := assign_partitions
            (clone_gates opt opt_topo m.ntk (seed_inputs opt part.inputs 0 (fun _ => none))).2
            partition_id opt_topo
            (m.partitions.resize
              (clone_gates opt opt_topo m.ntk
                (seed_inputs opt part.inputs 0 (fun _ => none))).1.size),
         partition_count := m.partition_count,
         substitutions := calc_substitutions opt part
            (clone_gates opt opt_topo m.ntk (seed_inputs opt part.inputs 0 (fun _ => none))).2
            opt.outputs 0 m.substitutions }) := by
  unfold Manager.integrate
  rw [if_neg (not_not.2 hci), if_neg (not_not.2 hco)]

theorem clone_map_index_ge (topo : List Nat) (base : Nat) (f : NodeMap) (g : Nat)
    (hg : g ∈ topo) : base ≤ get_node ((clone_map topo base f).get g) := by
  obtain ⟨j, _, heq⟩ := clone_map_mem_exists topo base f g hg
  simp [NodeMap.get, heq, get_node, make_signal]

theorem integrate_failed (m : Manager) (partition_id : Int) (part : Window)
    (opt : Network) (opt_topo : List Nat)
    (h : ¬ (opt.num_cis = part.num_cis ∧ opt.num_cos = part.num_cos)) :
    m.integrate partition_id part opt opt_topo = (Outcome.assertion_failed, m) := by
  unfold Manager.integrate
  by_cases h1 : opt.num_cis = part.num_cis
  · have h2 : opt.num_cos ≠ part.num_cos := fun h2 => h ⟨h1, h2⟩
    rw [if_neg (not_not.2 h1), if_pos h2]
  · rw [if_pos h1]

theorem mem_assign_self (t : Table) (k : Nat) (v : Signal) : (k, v) ∈ t.assign k v := by
  induction t with
  | nil => simp [Table.assign]
  | cons e t ih =>
    obtain ⟨k0, v0⟩ := e
    unfold Table.assign
    by_cases h : k0 = k
    · subst h
      simp
    · simp only [h, if_false]
      exact List.mem_cons_of_mem _ ih

theorem mem_assign_of_ne (t : Table) (k : Nat) (v : Signal) (e : Nat × Signal) (he : e ∈ t)
    (hne : e.1 ≠ k) : e ∈ t.assign k v := by
  induction t with
  | nil => simp at he
  | cons e0 t ih =>
    obtain ⟨k0, v0⟩ := e0
    unfold Table.assign
    by_cases h : k0 = k
    · subst h
      simp only [if_true]
      rcases List.mem_cons.1 he with heq | hmem
      · rw [heq] at hne
        exact absurd rfl hne
      · exact List.mem_cons_of_mem _ hmem
    · simp only [h, if_false]
      rcases List.mem_cons.1 he with heq | hmem
      · rw [heq]
        exact List.mem_cons_self _ _
      · exact List.mem_cons_of_mem _ (ih hmem)

/-- An entry stays in the table when no later position records its key. -/
theorem calc_substitutions_keep (opt : Network) (part : Window) (f : NodeMap)
    (e : Nat × Signal) :
    ∀ (l : List Signal) (index : Nat) (t : Table), e ∈ t →
      (∀ j s, l[j]? = some s → opt.is_constant (get_node s) = false →
        opt.is_ci (get_node s) = false → get_node (part.co_at (index + j)) ≠ e.1) →
      e ∈ calc_substitutions opt part f l index t
  | [], _, t, he, _ => by
    simpa [calc_substitutions] using he
  | s0 :: rest, index, t, he, h => by
    unfold calc_substitutions
    simp only
    apply calc_substitutions_keep opt part f e rest (index + 1)
    · by_cases hg : (!opt.is_constant (get_node s0) && !opt.is_ci (get_node s0)) = true
      · rw [if_pos hg]
        simp only [Bool.and_eq_true, Bool.not_eq_true'] at hg
        have := h 0 s0 (by simp) hg.1 hg.2
        exact mem_assign_of_ne _ _ _ _ he (fun heq => this heq.symm)
      · rw [if_neg hg]
        exact he
    · intro j s hj hc hi
      have := h (j + 1) s (by simpa using hj) hc hi
      rwa [show index + (j + 1) = index + 1 + j by omega] at this

/-- The entry recorded at a position is in the table when no later position records the
same key. -/
theorem calc_substitutions_records (opt : Network) (part : Window) (f : NodeMap) :
    ∀ (l : List Signal) (index : Nat) (t : Table) (i : Nat) (so : Signal),
      l[i]? = some so → opt.is_constant (get_node so) = false →
      opt.is_ci (get_node so) = false →
      (∀ j s, i < j → l[j]? = some s → opt.is_constant (get_node s) = false →
        opt.is_ci (get_node s) = false →
        get_node (part.co_at (index + j)) ≠ get_node (part.co_at (index + i))) →
      (get_node (part.co_at (index + i)), resolve f so) ∈ calc_substitutions opt part f l index t
  | [], _, _, _, _, h, _, _, _ => by simp at h
  | s0 :: rest, index, t, 0, so, hi, hc, hci, hlater => by
    simp only [List.getElem?_cons_zero, Option.some.injEq] at hi
    subst hi
    unfold calc_substitutions
    simp only
    have hg : (!opt.is_constant (get_node s0) && !opt.is_ci (get_node s0)) = true := by
      simp [hc, hci]
    rw [if_pos hg]
    apply calc_substitutions_keep
    · exact mem_assign_self _ _ _
    · intro j s hj hc' hi'
      have := hlater (j + 1) s (by omega) (by simpa using hj) hc' hi'
      rw [show index + (j + 1) = index + 1 + j by omega] at this
      simpa using this
  | s0 :: rest, index, t, i + 1, so, hi, hc, hci, hlater => by
    simp only [List.getElem?_cons_succ] at hi
    unfold calc_substitutions
    simp only
    rw [show index + (i + 1) = index + 1 + i by omega]
    apply calc_substitutions_records opt part f rest (index + 1) _ i so hi hc hci
    intro j s hij hj hc' hi'
    have := hlater (j + 1) s (by omega) (by simpa using hj) hc' hi'
    rwa [show index + (j + 1) = index + 1 + j by omega,
      show index + (i + 1) = index + 1 + i by omega] at this

theorem co_at_inj (part : Window) (hnd : (part.outputs.map get_node).Nodup) (i j : Nat)
    (hi : i < part.outputs.length) (hj : j < part.outputs.length)
    (h : get_node (part.co_at i) = get_node (part.co_at j)) : i = j := by
  unfold Window.co_at at h
  rw [List.getD_eq_getElem _ _ hi, List.getD_eq_getElem _ _ hj] at h
  have h1 : (part.outputs.map get_node).get ⟨i, by simpa using hi⟩ =
      (part.outputs.map get_node).get ⟨j, by simpa using hj⟩ := by
    simpa using h
  exact (List.Nodup.getElem_inj_iff hnd).1 h1

theorem clone_gates_map (opt : Network) (topo : List Nat) (N : Network) (f : NodeMap) :
    (clone_gates opt topo N f).2 = clone_map topo N.size f := by
  rw [clone_gates_eq]

theorem seeded_ci (opt : Network) (part : Window) (opt_topo : List Nat) (N : Network)
    (hci : opt.num_cis = part.num_cis) (hgates : ∀ g ∈ opt_topo, opt.is_gate g = true)
    (i : Nat) (hi : i < part.inputs.length) :
    seed_inputs opt part.inputs 0 (fun _ => none) (opt.ci_at i) =
        some (make_signal (part.inputs.getD i 0)) ∧
      (clone_gates opt opt_topo N (seed_inputs opt part.inputs 0 (fun _ => none))).2
        (opt.ci_at i) = some (make_signal (part.inputs.getD i 0)) := by
  have hlen : opt.cis.length = part.inputs.length := hci
  have hseed : seed_inputs opt part.inputs 0 (fun _ => none) (opt.ci_at i) =
      some (make_signal (part.inputs.getD i 0)) := by
    have := seed_inputs_at opt part.inputs 0 (fun _ => none) i part.inputs[i] (by omega)
      (List.getElem?_eq_getElem hi)
    rw [Nat.zero_add] at this
    rw [this, List.getD_eq_getElem _ _ hi]
  refine ⟨hseed, ?_⟩
  rw [clone_gates_map, clone_map_not_mem _ _ _ _ ?_, hseed]
  intro hmem
  have h1 := hgates _ hmem
  have h2 := ci_at_is_ci opt i (by omega)
  rw [is_gate_not_ci opt _ h1] at h2
  simp at h2

theorem clone_nodes_at (opt : Network) :
    ∀ (pre : List Nat) (g : Nat) (post : List Nat) (base : Nat) (f : NodeMap),
      (clone_nodes opt (pre ++ g :: post) base f)[pre.length]? =
        some (Node.gate (opt.gate_fn g) ((opt.fanin g).map (resolve (clone_map pre base f))))
  | [], g, post, base, f => by
    simp [clone_nodes, clone_map]
  | g0 :: pre, g, post, base, f => by
    simp only [List.cons_append, clone_nodes, List.length_cons, List.getElem?_cons_succ,
      clone_map]
    exact clone_nodes_at opt pre g post (base + 1) _

theorem seeded_constant (opt : Network) (part : Window) (pre : List Nat) (N : Network)
    (hci : opt.num_cis = part.num_cis) (hgates : ∀ g ∈ pre, opt.is_gate g = true)
    (x : Nat) (hx : opt.is_constant x = true) :
    (clone_gates opt pre N (seed_inputs opt part.inputs 0 (fun _ => none))).2 x = none := by
  have hlen : opt.cis.length = part.inputs.length := hci
  rw [clone_gates_map, clone_map_not_mem _ _ _ _ ?_, seed_inputs_other]
  · intro j hj heq
    have := ci_at_is_ci opt (0 + j) (by omega)
    rw [← heq, is_constant_not_ci opt x hx] at this
    simp at this
  · intro hmem
    have := is_gate_not_constant opt _ (hgates _ hmem)
    rw [hx] at this
    simp at this

theorem flatMap_nil_of_forall {α β : Type} (l : List α) (f : α → List β)
    (h : ∀ a ∈ l, f a = []) : l.flatMap f = [] := by
  induction l with
  | nil => rfl
  | cons a l ih =>
    rw [List.flatMap_cons, h a (List.mem_cons_self _ _),
      ih (fun b hb => h b (List.mem_cons_of_mem _ hb))]
    rfl

theorem scan_empty (m : Manager) (id : Int)
    (hempty : ∀ n, n < m.ntk.size → m.ntk.is_constant n = false → m.node_partition n ≠ id) :
    m.scan id = { inputs := [], outputs := [], gates := [] } := by
  have hskip : ∀ n ∈ m.ntk.node_list,
      (m.partitions.get n != id || m.ntk.is_constant n) = true := by
    intro n hn
    simp only [Network.node_list, List.mem_range] at hn
    cases hc : m.ntk.is_constant n with
    | true => simp
    | false =>
      have := hempty n hn hc
      simp only [Manager.node_partition] at this
      simp [this]
  have h1 : (m.scan id).inputs = [] := by
    rw [scan_inputs]
    apply flatMap_nil_of_forall
    intro n hn
    simp [Manager.visit_inputs, hskip n hn]
  have h2 : (m.scan id).outputs = [] := by
    rw [scan_outputs]
    apply flatMap_nil_of_forall
    intro n hn
    simp [Manager.visit_outputs, hskip n hn]
  have h3 : (m.scan id).gates = [] := by
    rw [scan_gates]
    apply flatMap_nil_of_forall
    intro n hn
    simp [Manager.visit_gates, hskip n hn]
  cases hs : m.scan id with
  | mk i o g =>
    rw [hs] at h1 h2 h3
    simp only at h1 h2 h3
    rw [h1, h2, h3]

theorem resize_self (p : PartitionMap) : p.resize p.length = p := by
  unfold PartitionMap.resize
  simp

/-! ## Claims -/

/-- C1 (identity round trip): for a manager constructed on a well-formed acyclic network,
when the replacement is the window `partition(id)` up to a renaming of its nodes (i-th input
for i-th window input, i-th output for i-th window output, same gates) and its gates are
cloned in a topological order, `integrate(id, window, replacement)` passes the assertions
and every primary output of the parent network has, under every assignment of the primary
inputs, the value it had before the call. -/
theorem integrate_identity_round_trip (interp : Nat → List Bool → Bool) (N : Network)
    (P : PartitionMap) (part_num : Int) (id : Int) (O : Network) (topo : List Nat)
    (φ : Nat → Nat) (hwf : N.WellFormed) (hac : N.Acyclic) (hwfO : O.WellFormed)
    (htopo : TopoOrder O topo)
    (hid : Identical N ((Manager.mk_junior N P part_num).partition id).1 O φ)
    (env : Nat → Bool) (i : Nat) (hi : i < N.outputs.length) :
    ((Manager.mk_junior N P part_num).integrate id
        ((Manager.mk_junior N P part_num).partition id).1 O topo).1 = Outcome.done ∧
      ∃ b, N.output_value interp env i = some b ∧
        ((Manager.mk_junior N P part_num).integrate id
          ((Manager.mk_junior N P part_num).partition id).1 O topo).2.ntk.output_value
            interp env i = some b := by
  have hset := partition_setting N P part_num id O topo hwf hwfO htopo hid.count_cis hid.count_cos
  have hgates := partition_gates_are_gates (Manager.mk_junior N P part_num) id
  obtain ⟨hdone, hntk⟩ := integrate_ntk (Manager.mk_junior N P part_num) id
    ((Manager.mk_junior N P part_num).partition id).1 O topo hid.count_cis hid.count_cos rfl
  refine ⟨hdone, ?_⟩
  rw [hntk]
  obtain ⟨rank, hr⟩ := hac
  have hv := valuation_consistent interp N env hwf ⟨rank, hr⟩
  apply hset.outputs_preserved interp env (fun x => N.valuation interp env (φ x))
    (fun x => N.valuation interp env (φ x)) ⟨rank, hr⟩
    ⟨_, hset.identity_ranked hid hgates rank hr⟩
    (hid.renamed_consistent hgates interp env _ hv)
  · intro j n hj
    rw [hid.input_eq j n hj]
  · intro k so hk _
    have hco := hid.output_eq k so hk
    have hcomp := partition_co_at_complement (Manager.mk_junior N P part_num) id k
    rw [hco] at hcomp
    simp only at hcomp
    rw [hco]
    simp [Signal.value, hcomp, get_node]
  · exact hi

/-- Witness of C1: inputs `1`, `2`, the gate `3 = AND(1, 2)` as primary output and in
partition 0. After `integrate` with the same network as replacement the output is true
exactly when both inputs are. -/
theorem integrate_identity_round_trip_witness :
    ((Manager.mk_junior two_input_gate [0, 1, 1, 0] 2).integrate 0
        ((Manager.mk_junior two_input_gate [0, 1, 1, 0] 2).partition 0).1
        two_input_gate [3]).1 = Outcome.done ∧
      ∀ a b : Bool,
        ((Manager.mk_junior two_input_gate [0, 1, 1, 0] 2).integrate 0
          ((Manager.mk_junior two_input_gate [0, 1, 1, 0] 2).partition 0).1
          two_input_gate [3]).2.ntk.output_value and_gates (assign_two a b) 0 =
            some (a && b) := by
  have hwf : two_input_gate.WellFormed := by
    unfold Network.WellFormed
    decide
  have hac : two_input_gate.Acyclic := ⟨fun n => n, by unfold Network.Ranked; decide⟩
  have htopo : TopoOrder two_input_gate [3] := by
    unfold TopoOrder
    decide
  have hid : Identical two_input_gate
      ((Manager.mk_junior two_input_gate [0, 1, 1, 0] 2).partition 0).1 two_input_gate
      (fun n => n) :=
    ⟨by decide, by decide, by decide, by decide, by decide, by decide⟩
  refine ⟨(integrate_identity_round_trip and_gates two_input_gate [0, 1, 1, 0] 2 0
    two_input_gate [3] (fun n => n) hwf hac hwf htopo hid (fun _ => true) 0 (by decide)).1, ?_⟩
  intro a b
  obtain ⟨v, hv1, hv2⟩ := (integrate_identity_round_trip and_gates two_input_gate [0, 1, 1, 0] 2 0
    two_input_gate [3] (fun n => n) hwf hac hwf htopo hid (assign_two a b) 0 (by decide)).2
  rw [hv2, ← hv1]
  cases a <;> cases b <;> rfl

/-- C3 (count precondition): when the replacement's primary-input count differs
from the window's input count, or its primary-output count from the window's
output count, `integrate` ends in the failed assertion and the manager (network,
partition map, partition count and substitution table) is the one it was called
on. -/
theorem integrate_count_mismatch (m : Manager) (partition_id : Int) (part : Window)
    (opt : Network) (opt_topo : List Nat)
    (h : opt.num_cis ≠ part.num_cis ∨ opt.num_cos ≠ part.num_cos) :
    m.integrate partition_id part opt opt_topo = (Outcome.assertion_failed, m) := by
  unfold Manager.integrate
  rcases h with h | h
  · rw [if_pos h]
  · by_cases h1 : opt.num_cis ≠ part.num_cis
    · rw [if_pos h1]
    · rw [if_neg h1, if_pos h]

/-- Witness of C3: a replacement with one input for a window with two inputs is
rejected and the manager is unchanged. -/
theorem integrate_count_mismatch_witness :
    (Manager.mk_junior ⟨[Node.constant, Node.ci, Node.ci,
        Node.gate 0 [⟨1, false⟩, ⟨2, false⟩]], [⟨3, false⟩]⟩ [0, 1, 1, 0] 2).integrate 0
      ⟨[1, 2], [⟨3, false⟩], [3]⟩
      ⟨[Node.constant, Node.ci, Node.gate 0 [⟨1, false⟩]], [⟨2, false⟩]⟩ [2] =
    (Outcome.assertion_failed,
      Manager.mk_junior ⟨[Node.constant, Node.ci, Node.ci,
        Node.gate 0 [⟨1, false⟩, ⟨2, false⟩]], [⟨3, false⟩]⟩ [0, 1, 1, 0] 2) :=
  integrate_count_mismatch _ 0 _ _ _ (Or.inl (by decide))

/-- C4 (partition closure, gates): a node of the network is in the gates of
`partition(id)` exactly when it is not a constant, not a primary input, and its
partition id is `id`. -/
theorem partition_gates_closure (m : Manager) (id : Int) (n : Nat) :
    n ∈ (m.partition id).1.gates ↔
      (n < m.ntk.size ∧ m.ntk.is_constant n = false ∧ m.ntk.is_ci n = false ∧
        m.node_partition n = id) := by
  rw [mem_partition_gates]
  unfold Manager.node_partition
  tauto

/-- C5 (partition closure, inputs): a node is in the inputs of `partition(id)`
exactly when it is a non-constant primary input with partition id `id`, or a
non-constant node with a different partition id that is a fan-in of some gate of
`partition(id)`. -/
theorem partition_inputs_closure (m : Manager) (id : Int) (n : Nat) :
    n ∈ (m.partition id).1.inputs ↔
      ((m.ntk.is_ci n = true ∧ m.ntk.is_constant n = false ∧ m.node_partition n = id) ∨
       (m.ntk.is_constant n = false ∧ m.node_partition n ≠ id ∧
          ∃ g ∈ (m.partition id).1.gates, ∃ f ∈ m.ntk.fanin g, get_node f = n)) := by
  rw [mem_partition_inputs]
  unfold Manager.node_partition
  constructor
  · rintro (⟨h1, h2⟩ | h)
    · exact Or.inl ⟨h1, is_ci_not_constant _ _ h1, h2⟩
    · exact Or.inr h
  · rintro (⟨h1, _, h2⟩ | h)
    · exact Or.inl ⟨h1, h2⟩
    · exact Or.inr h

/-- C6 (boundary outputs): the signal of node `n` is in the outputs of
`partition(id)` exactly when `n` is a non-constant node of the network with
partition id `id` and either some fanout consumer of `n` has another partition
id or `n` is the node of some primary output. -/
theorem partition_outputs_boundary (m : Manager) (id : Int) (n : Nat) :
    make_signal n ∈ (m.partition id).1.outputs ↔
      (n < m.ntk.size ∧ m.ntk.is_constant n = false ∧ m.node_partition n = id ∧
        ((∃ c ∈ m.ntk.fanout n, m.node_partition c ≠ id) ∨
         (∃ co ∈ m.ntk.outputs, get_node co = n))) := by
  rw [mem_partition_outputs]
  unfold Manager.node_partition
  simp only [make_signal, true_and]
  constructor
  · rintro ⟨h1, h2, h3, h4⟩
    exact ⟨h1, h3, h2, h4⟩
  · rintro ⟨h1, h2, h3, h4⟩
    exact ⟨h1, h3, h2, h4⟩

/-- Counterexample to C7 as stated: the gate `2 = f(const, 1)` of partition 0
has the constant node 0 as a fan-in, and node 0 is neither in the inputs nor in
the gates of `partition(0)`. -/
theorem partition_dangling_constant :
    ¬ (∀ g ∈ ((Manager.mk_junior ⟨[Node.constant, Node.ci,
          Node.gate 0 [⟨0, false⟩, ⟨1, false⟩]], [⟨2, false⟩]⟩ [0, 0, 0] 1).partition 0).1.gates,
        ∀ f ∈ (Network.mk [Node.constant, Node.ci,
          Node.gate 0 [⟨0, false⟩, ⟨1, false⟩]] [⟨2, false⟩]).fanin g,
        get_node f ∈ ((Manager.mk_junior ⟨[Node.constant, Node.ci,
          Node.gate 0 [⟨0, false⟩, ⟨1, false⟩]], [⟨2, false⟩]⟩ [0, 0, 0] 1).partition 0).1.inputs ∨
        get_node f ∈ ((Manager.mk_junior ⟨[Node.constant, Node.ci,
          Node.gate 0 [⟨0, false⟩, ⟨1, false⟩]], [⟨2, false⟩]⟩ [0, 0, 0] 1).partition 0).1.gates) := by
  decide

/-- C7 amended (no dangling references): every fan-in of every gate of
`partition(id)` whose node is a non-constant node of the network is a member of
the inputs or of the gates of `partition(id)`. -/
theorem partition_no_dangling (m : Manager) (id : Int) (g : Nat)
    (hg : g ∈ (m.partition id).1.gates) (f : Signal) (hf : f ∈ m.ntk.fanin g)
    (hlt : get_node f < m.ntk.size) (hc : m.ntk.is_constant (get_node f) = false) :
    get_node f ∈ (m.partition id).1.inputs ∨ get_node f ∈ (m.partition id).1.gates := by
  by_cases hp : m.partitions.get (get_node f) = id
  · by_cases hci : m.ntk.is_ci (get_node f) = true
    · exact Or.inl ((mem_partition_inputs m id _).2 (Or.inl ⟨hci, hp⟩))
    · exact Or.inr ((mem_partition_gates m id _).2 ⟨hlt, hp, hc, by simpa using hci⟩)
  · exact Or.inl ((mem_partition_inputs m id _).2 (Or.inr ⟨hc, hp, g, hg, f, hf, rfl⟩))

/-- Witness of C7 amended: in the network of the counterexample the fan-in
node 1 of gate 2 is a window input. -/
theorem partition_no_dangling_witness :
    get_node ⟨1, false⟩ ∈ ((Manager.mk_junior ⟨[Node.constant, Node.ci,
        Node.gate 0 [⟨0, false⟩, ⟨1, false⟩]], [⟨2, false⟩]⟩ [0, 0, 0] 1).partition 0).1.inputs ∨
      get_node ⟨1, false⟩ ∈ ((Manager.mk_junior ⟨[Node.constant, Node.ci,
        Node.gate 0 [⟨0, false⟩, ⟨1, false⟩]], [⟨2, false⟩]⟩ [0, 0, 0] 1).partition 0).1.gates :=
  partition_no_dangling (Manager.mk_junior ⟨[Node.constant, Node.ci,
        Node.gate 0 [⟨0, false⟩, ⟨1, false⟩]], [⟨2, false⟩]⟩ [0, 0, 0] 1) 0 2 (by decide)
    ⟨1, false⟩ (by decide) (by decide) (by decide)

/-- C8 (ordering of the boundary lists): the inputs of `partition(id)` are
strictly increasing in node identity and the outputs strictly increasing in
signal identity, so both lists are sorted and hold no element twice. -/
theorem partition_lists_increasing (m : Manager) (id : Int) :
    (m.partition id).1.inputs.Pairwise (fun a b => a < b) ∧
      (m.partition id).1.outputs.Pairwise (fun a b => a.data < b.data) :=
  ⟨partition_inputs_sorted m id, partition_outputs_sorted m id⟩

/-- C9 (extraction is repeatable and read-only): `partition(id)` leaves the
network, the partition map and the partition count as they were, and a second
call right after the first returns the same inputs, outputs and gates. -/
theorem partition_read_only (m : Manager) (id : Int) :
    (m.partition id).2.ntk = m.ntk ∧ (m.partition id).2.partitions = m.partitions ∧
      (m.partition id).2.count = m.count ∧
      ((m.partition id).2.partition id).1.inputs = (m.partition id).1.inputs ∧
      ((m.partition id).2.partition id).1.outputs = (m.partition id).1.outputs ∧
      ((m.partition id).2.partition id).1.gates = (m.partition id).1.gates :=
  ⟨rfl, rfl, rfl, rfl, rfl, rfl⟩

/-- Counterexample to C10 as stated: input 1 has partition id 0 and feeds gate 3
of partition 1, so it is a window output of `partition(0)`; the replacement
drives its output by a gate, the call passes the count assertions and records a
substitution whose key is the primary input 1. -/
theorem integrate_substitutes_primary_input :
    ((Manager.mk_junior two_input_gate [0, 0, 1, 1] 2).integrate 0
        ((Manager.mk_junior two_input_gate [0, 0, 1, 1] 2).partition 0).1
        one_input_gate [2]).1 = Outcome.done ∧
    ¬ (∀ e ∈ ((Manager.mk_junior two_input_gate [0, 0, 1, 1] 2).integrate 0
          ((Manager.mk_junior two_input_gate [0, 0, 1, 1] 2).partition 0).1
          one_input_gate [2]).2.substitutions,
        two_input_gate.is_ci e.1 = false ∧ two_input_gate.is_constant e.1 = false) := by
  decide

/-- C10 amended: in a call that passes the count assertions the table applied to
the network is the table left in the manager; a node is a key of it exactly when
it was a key before the call or is the node of the window output at a position
whose driver in the optimized network is neither a constant nor an input of the
optimized network (a position whose optimized driver is a constant or an input
is skipped); and with `part = partition(partition_id)` no window output node is
a constant of the parent network. -/
theorem integrate_recorded_keys (m : Manager) (partition_id : Int) (part : Window)
    (opt : Network) (opt_topo : List Nat)
    (hci : opt.num_cis = part.num_cis) (hco : opt.num_cos = part.num_cos) :
    (m.integrate partition_id part opt opt_topo).1 = Outcome.done ∧
    (m.integrate partition_id part opt opt_topo).2.ntk =
      apply_substitutions (m.integrate partition_id part opt opt_topo).2.substitutions
        (clone_gates opt opt_topo m.ntk (seed_inputs opt part.inputs 0 (fun _ => none))).1 ∧
    (∀ k, k ∈ (m.integrate partition_id part opt opt_topo).2.substitutions.map Prod.fst ↔
      (k ∈ m.substitutions.map Prod.fst ∨
        ∃ i s, opt.outputs[i]? = some s ∧ opt.is_constant (get_node s) = false ∧
          opt.is_ci (get_node s) = false ∧ get_node (part.co_at i) = k)) ∧
    (part = (m.partition partition_id).1 → ∀ i, i < opt.outputs.length →
      m.ntk.is_constant (get_node (part.co_at i)) = false) := by
  have hint : m.integrate partition_id part opt opt_topo =
      (Outcome.done,
       { ntk := apply_substitutions
            (calc_substitutions opt part
              (clone_gates opt opt_topo m.ntk (seed_inputs opt part.inputs 0 (fun _ => none))).2
              opt.outputs 0 m.substitutions)
            (clone_gates opt opt_topo m.ntk (seed_inputs opt part.inputs 0 (fun _ => none))).1,
         partitions := assign_partitions
            (clone_gates opt opt_topo m.ntk (seed_inputs opt part.inputs 0 (fun _ => none))).2
            partition_id opt_topo
            (m.partitions.resize
              (clone_gates opt opt_topo m.ntk
                (seed_inputs opt part.inputs 0 (fun _ => none))).1.size),
         partition_count := m.partition_count,
         substitutions := calc_substitutions opt part
            (clone_gates opt opt_topo m.ntk (seed_inputs opt part.inputs 0 (fun _ => none))).2
            opt.outputs 0 m.substitutions }) := by
    unfold Manager.integrate
    rw [if_neg (not_not.2 hci), if_neg (not_not.2 hco)]
  rw [hint]
  refine ⟨rfl, rfl, ?_, ?_⟩
  · intro k
    simp only
    rw [mem_keys_calc_substitutions]
    simp only [Nat.zero_add]
  · intro hpart i hi
    have hlen : i < part.outputs.length := by
      have : opt.outputs.length = part.outputs.length := hco
      omega
    have hmem : part.co_at i ∈ (m.partition partition_id).1.outputs := by
      rw [← hpart]
      unfold Window.co_at
      rw [List.getD_eq_getElem _ _ hlen]
      exact List.getElem_mem _
    exact ((mem_partition_outputs m partition_id _).1 hmem).2.2.2.1

/-- Witness of C10 amended, at the call of the counterexample. -/
theorem integrate_recorded_keys_witness :
    ((Manager.mk_junior two_input_gate [0, 0, 1, 1] 2).integrate 0
        ((Manager.mk_junior two_input_gate [0, 0, 1, 1] 2).partition 0).1
        one_input_gate [2]).1 = Outcome.done ∧
    (∀ k, k ∈ ((Manager.mk_junior two_input_gate [0, 0, 1, 1] 2).integrate 0
        ((Manager.mk_junior two_input_gate [0, 0, 1, 1] 2).partition 0).1
        one_input_gate [2]).2.substitutions.map Prod.fst ↔
      (k ∈ (Manager.mk_junior two_input_gate [0, 0, 1, 1] 2).substitutions.map Prod.fst ∨
        ∃ i s, one_input_gate.outputs[i]? = some s ∧
          one_input_gate.is_constant (get_node s) = false ∧
          one_input_gate.is_ci (get_node s) = false ∧
          get_node (((Manager.mk_junior two_input_gate [0, 0, 1, 1] 2).partition 0).1.co_at i)
            = k)) :=
  ⟨(integrate_recorded_keys (Manager.mk_junior two_input_gate [0, 0, 1, 1] 2) 0
      ((Manager.mk_junior two_input_gate [0, 0, 1, 1] 2).partition 0).1 one_input_gate [2]
      (by decide) (by decide)).1,
   (integrate_recorded_keys (Manager.mk_junior two_input_gate [0, 0, 1, 1] 2) 0
      ((Manager.mk_junior two_input_gate [0, 0, 1, 1] 2).partition 0).1 one_input_gate [2]
      (by decide) (by decide)).2.2.1⟩

/-- Counterexample to C11 as stated: the window output 3 is a gate of the parent network; the
replacement drives its output by its first input, the call passes the assertions and
records no substitution for node 3, whose logic stays in place. -/
theorem integrate_skips_wire_output :
    ((Manager.mk_junior two_input_gate [0, 1, 1, 0] 2).integrate 0
        ((Manager.mk_junior two_input_gate [0, 1, 1, 0] 2).partition 0).1
        two_input_wire []).1 = Outcome.done ∧
    ((Manager.mk_junior two_input_gate [0, 1, 1, 0] 2).partition 0).1.co_at 0 = ⟨3, false⟩ ∧
    two_input_gate.is_ci 3 = false ∧ two_input_gate.is_constant 3 = false ∧
    ((Manager.mk_junior two_input_gate [0, 1, 1, 0] 2).integrate 0
        ((Manager.mk_junior two_input_gate [0, 1, 1, 0] 2).partition 0).1
        two_input_wire []).2.substitutions = [] ∧
    ((Manager.mk_junior two_input_gate [0, 1, 1, 0] 2).integrate 0
        ((Manager.mk_junior two_input_gate [0, 1, 1, 0] 2).partition 0).1
        two_input_wire []).2.ntk = two_input_gate := by
  decide

/-- C11 amended (substitution of replaced outputs): in a call that passes the count
assertions, with pairwise distinct window output nodes, the network left is the cloned
network with every entry of the table applied; for an output position `i` of the replacement
whose driver is neither a constant nor an input of the replacement, the table holds the
substitution of the node of `window.outputs[i]` by `old_to_new` of the driver, negated when
the output is complemented, whatever the window node is; for a position whose driver is a
constant or an input of the replacement nothing is recorded, a key absent from the table
before the call is absent after it. -/
theorem integrate_records_gate_driven (m : Manager) (partition_id : Int) (part : Window)
    (opt : Network) (opt_topo : List Nat)
    (hci : opt.num_cis = part.num_cis) (hco : opt.num_cos = part.num_cos)
    (hnd : (part.outputs.map get_node).Nodup) (i : Nat) (so : Signal)
    (hi : opt.outputs[i]? = some so) :
    (m.integrate partition_id part opt opt_topo).2.ntk =
      apply_substitutions (m.integrate partition_id part opt opt_topo).2.substitutions
        (clone_gates opt opt_topo m.ntk (seed_inputs opt part.inputs 0 (fun _ => none))).1 ∧
    (opt.is_constant (get_node so) = false → opt.is_ci (get_node so) = false →
      (get_node (part.co_at i),
        resolve (clone_gates opt opt_topo m.ntk
          (seed_inputs opt part.inputs 0 (fun _ => none))).2 so) ∈
        (m.integrate partition_id part opt opt_topo).2.substitutions) ∧
    ((opt.is_constant (get_node so) = true ∨ opt.is_ci (get_node so) = true) →
      get_node (part.co_at i) ∉ m.substitutions.map Prod.fst →
      get_node (part.co_at i) ∉
        (m.integrate partition_id part opt opt_topo).2.substitutions.map Prod.fst) := by
  have hlen : opt.outputs.length = part.outputs.length := hco
  have hilt : i < opt.outputs.length := getElem?_lt_of_some hi
  rw [integrate_done m partition_id part opt opt_topo hci hco]
  refine ⟨rfl, ?_, ?_⟩
  · intro hc hci'
    have := calc_substitutions_records opt part
      (clone_gates opt opt_topo m.ntk (seed_inputs opt part.inputs 0 (fun _ => none))).2
      opt.outputs 0 m.substitutions i so hi hc hci' (by
        intro j s hij hj _ _ heq
        have hjlt : j < opt.outputs.length := getElem?_lt_of_some hj
        rw [Nat.zero_add, Nat.zero_add] at heq
        have := co_at_inj part hnd j i (by omega) (by omega) heq
        omega)
    rwa [Nat.zero_add] at this
  · intro hskip hnot hmem
    simp only at hmem
    rcases (mem_keys_calc_substitutions opt part _ _ opt.outputs 0 m.substitutions).1 hmem with
      h | ⟨j, s, hj, hc, hci', heq⟩
    · exact hnot h
    · have hjlt : j < opt.outputs.length := getElem?_lt_of_some hj
      rw [Nat.zero_add] at heq
      have hji := co_at_inj part hnd j i (by omega) (by omega) heq
      subst hji
      rw [hi] at hj
      simp only [Option.some.injEq] at hj
      subst hj
      rcases hskip with h | h
      · rw [h] at hc; simp at hc
      · rw [h] at hci'; simp at hci'

/-- Witness of C11 amended: with the gate `3 = AND(1, 2)` replaced by itself, the table holds
the substitution of node 3 by `old_to_new` of the driver of the output. -/
theorem integrate_records_gate_driven_witness :
    (get_node (((Manager.mk_junior two_input_gate [0, 1, 1, 0] 2).partition 0).1.co_at 0),
        resolve (clone_gates two_input_gate [3] two_input_gate
          (seed_inputs two_input_gate
            ((Manager.mk_junior two_input_gate [0, 1, 1, 0] 2).partition 0).1.inputs 0
            (fun _ => none))).2 ⟨3, false⟩) ∈
      ((Manager.mk_junior two_input_gate [0, 1, 1, 0] 2).integrate 0
        ((Manager.mk_junior two_input_gate [0, 1, 1, 0] 2).partition 0).1
        two_input_gate [3]).2.substitutions :=
  (integrate_records_gate_driven (Manager.mk_junior two_input_gate [0, 1, 1, 0] 2) 0
    ((Manager.mk_junior two_input_gate [0, 1, 1, 0] 2).partition 0).1 two_input_gate [3]
    (by decide) (by decide) (by decide) 0 ⟨3, false⟩ (by decide)).2.1 (by decide) (by decide)

/-- Counterexample to C12 as stated: after a first call on a new manager the table is not
empty, it holds the substitution of node 3; a second call on the same manager leaves a table
that still holds it, before the substitution the second call records, and applies both. -/
theorem integrate_keeps_table :
    ((Manager.mk_junior two_input_gate [0, 1, 1, 0] 2).integrate 0
        ((Manager.mk_junior two_input_gate [0, 1, 1, 0] 2).partition 0).1
        two_input_gate [3]).2.substitutions = [(3, ⟨4, false⟩)] ∧
    ((((Manager.mk_junior two_input_gate [0, 1, 1, 0] 2).integrate 0
        ((Manager.mk_junior two_input_gate [0, 1, 1, 0] 2).partition 0).1
        two_input_gate [3]).2).integrate 0
      ((((Manager.mk_junior two_input_gate [0, 1, 1, 0] 2).integrate 0
        ((Manager.mk_junior two_input_gate [0, 1, 1, 0] 2).partition 0).1
        two_input_gate [3]).2).partition 0).1 two_input_gate [3]).2.substitutions =
      [(3, ⟨4, false⟩), (4, ⟨5, false⟩)] := by
  decide

/-- C12 amended (the table is a member that is never emptied): in a call that passes the
count assertions the substitutions applied to the cloned network are all entries of the
table the call leaves in the manager; every key of the table before the call is still a key
after it, and an entry of an earlier call whose key is not recorded again by this call is
still in the table, so it is applied again. -/
theorem integrate_table_persists (m : Manager) (partition_id : Int) (part : Window)
    (opt : Network) (opt_topo : List Nat)
    (hci : opt.num_cis = part.num_cis) (hco : opt.num_cos = part.num_cos) :
    (m.integrate partition_id part opt opt_topo).2.ntk =
      apply_substitutions (m.integrate partition_id part opt opt_topo).2.substitutions
        (clone_gates opt opt_topo m.ntk (seed_inputs opt part.inputs 0 (fun _ => none))).1 ∧
    (∀ k ∈ m.substitutions.map Prod.fst,
      k ∈ (m.integrate partition_id part opt opt_topo).2.substitutions.map Prod.fst) ∧
    (∀ e ∈ m.substitutions,
      (∀ i s, opt.outputs[i]? = some s → opt.is_constant (get_node s) = false →
        opt.is_ci (get_node s) = false → get_node (part.co_at i) ≠ e.1) →
      e ∈ (m.integrate partition_id part opt opt_topo).2.substitutions) := by
  rw [integrate_done m partition_id part opt opt_topo hci hco]
  refine ⟨rfl, ?_, ?_⟩
  · intro k hk
    exact (mem_keys_calc_substitutions opt part _ k opt.outputs 0 m.substitutions).2 (Or.inl hk)
  · intro e he hne
    apply calc_substitutions_keep opt part _ e opt.outputs 0 m.substitutions he
    intro j s hj hc hi
    rw [Nat.zero_add]
    exact hne j s hj hc hi

/-- Witness of C12 amended: the key 3 recorded by a first call is a key of the table after
a second call. -/
theorem integrate_table_persists_witness :
    3 ∈ ((((Manager.mk_junior two_input_gate [0, 1, 1, 0] 2).integrate 0
        ((Manager.mk_junior two_input_gate [0, 1, 1, 0] 2).partition 0).1
        two_input_gate [3]).2).integrate 0
      ((((Manager.mk_junior two_input_gate [0, 1, 1, 0] 2).integrate 0
        ((Manager.mk_junior two_input_gate [0, 1, 1, 0] 2).partition 0).1
        two_input_gate [3]).2).partition 0).1 two_input_gate [3]).2.substitutions.map Prod.fst :=
  (integrate_table_persists
    ((Manager.mk_junior two_input_gate [0, 1, 1, 0] 2).integrate 0
        ((Manager.mk_junior two_input_gate [0, 1, 1, 0] 2).partition 0).1
        two_input_gate [3]).2 0
    ((((Manager.mk_junior two_input_gate [0, 1, 1, 0] 2).integrate 0
        ((Manager.mk_junior two_input_gate [0, 1, 1, 0] 2).partition 0).1
        two_input_gate [3]).2).partition 0).1 two_input_gate [3] (by decide) (by decide)).2.1
    3 (by decide)

/-- C14 (partition map frame): when the partition map has one entry per node, after a call
of `integrate`, failed or not, every node that existed before the call has an entry with
the partition id it had, the map has one entry per node of the network left by the call, so
the entries added are those of the nodes created, and `count()` is unchanged. -/
theorem integrate_partition_frame (m : Manager) (partition_id : Int) (part : Window)
    (opt : Network) (opt_topo : List Nat) (hlen : m.partitions.length = m.ntk.size) :
    (∀ n, n < m.ntk.size →
      n < (m.integrate partition_id part opt opt_topo).2.partitions.length ∧
      (m.integrate partition_id part opt opt_topo).2.node_partition n = m.node_partition n) ∧
    (m.integrate partition_id part opt opt_topo).2.partitions.length =
      (m.integrate partition_id part opt opt_topo).2.ntk.size ∧
    m.ntk.size ≤ (m.integrate partition_id part opt opt_topo).2.ntk.size ∧
    (m.integrate partition_id part opt opt_topo).2.count = m.count := by
  by_cases hci : opt.num_cis = part.num_cis
  · by_cases hco : opt.num_cos = part.num_cos
    · rw [integrate_done m partition_id part opt opt_topo hci hco]
      simp only [Manager.node_partition, PartitionMap.get, Manager.count]
      rw [assign_partitions_length, resize_length, apply_substitutions_size, clone_gates_size]
      refine ⟨?_, by trivial, by omega, by trivial⟩
      intro n hn
      refine ⟨by omega, ?_⟩
      rw [assign_partitions_other, resize_getD _ _ _ (by omega)]
      intro g hg
      have := clone_map_index_ge opt_topo m.ntk.size
        (seed_inputs opt part.inputs 0 (fun _ => none)) g hg
      rw [clone_gates_eq]
      simp only
      omega
    · rw [integrate_failed m partition_id part opt opt_topo (fun h => hco h.2)]
      exact ⟨fun n hn => ⟨by rw [hlen]; exact hn, rfl⟩, hlen, le_refl _, rfl⟩
  · rw [integrate_failed m partition_id part opt opt_topo (fun h => hci h.1)]
    exact ⟨fun n hn => ⟨by rw [hlen]; exact hn, rfl⟩, hlen, le_refl _, rfl⟩

/-- Witness of C14: after the identity replacement of the gate of the two-input network the
map has five entries, the first four as before. -/
theorem integrate_partition_frame_witness :
    ((Manager.mk_junior two_input_gate [0, 1, 1, 0] 2).integrate 0
        ((Manager.mk_junior two_input_gate [0, 1, 1, 0] 2).partition 0).1
        two_input_gate [3]).2.partitions.length =
      ((Manager.mk_junior two_input_gate [0, 1, 1, 0] 2).integrate 0
        ((Manager.mk_junior two_input_gate [0, 1, 1, 0] 2).partition 0).1
        two_input_gate [3]).2.ntk.size ∧
    ((Manager.mk_junior two_input_gate [0, 1, 1, 0] 2).integrate 0
        ((Manager.mk_junior two_input_gate [0, 1, 1, 0] 2).partition 0).1
        two_input_gate [3]).2.node_partition 1 =
      (Manager.mk_junior two_input_gate [0, 1, 1, 0] 2).node_partition 1 :=
  ⟨(integrate_partition_frame (Manager.mk_junior two_input_gate [0, 1, 1, 0] 2) 0
      ((Manager.mk_junior two_input_gate [0, 1, 1, 0] 2).partition 0).1 two_input_gate [3]
      (by decide)).2.1,
   ((integrate_partition_frame (Manager.mk_junior two_input_gate [0, 1, 1, 0] 2) 0
      ((Manager.mk_junior two_input_gate [0, 1, 1, 0] 2).partition 0).1 two_input_gate [3]
      (by decide)).1 1 (by decide)).2⟩

/-- C15 (empty partition): for a manager constructed with one map entry per node and an id
that no non-constant node has, `partition(id)` is the window with empty inputs, outputs and
gates, and `integrate(id, window, replacement)` with a replacement that has no input, no
output and no gate ends normally and returns the manager as it was: network, partition
map, partition count and table. -/
theorem partition_empty_noop (N : Network) (P : PartitionMap) (part_num : Int) (id : Int)
    (opt : Network) (opt_topo : List Nat) (hlen : P.length = N.size)
    (hempty : ∀ n, n < N.size → N.is_constant n = false →
      (Manager.mk_junior N P part_num).node_partition n ≠ id)
    (hcis : opt.num_cis = 0) (hcos : opt.num_cos = 0)
    (hnone : ∀ n, opt.is_gate n = false) (htopo : ∀ g ∈ opt_topo, opt.is_gate g = true) :
    ((Manager.mk_junior N P part_num).partition id).1 =
        { inputs := [], outputs := [], gates := [] } ∧
      (Manager.mk_junior N P part_num).integrate id
        ((Manager.mk_junior N P part_num).partition id).1 opt opt_topo =
        (Outcome.done, Manager.mk_junior N P part_num) := by
  have hwin : ((Manager.mk_junior N P part_num).partition id).1 =
      { inputs := [], outputs := [], gates := [] } := by
    simp only [Manager.partition, scan_empty (Manager.mk_junior N P part_num) id hempty]
    rfl
  refine ⟨hwin, ?_⟩
  rw [hwin]
  have ht : opt_topo = [] := by
    apply List.eq_nil_iff_forall_not_mem.2
    intro g hg
    have := htopo g hg
    rw [hnone g] at this
    simp at this
  have hout : opt.outputs = [] := List.eq_nil_of_length_eq_zero hcos
  rw [integrate_done _ id _ opt opt_topo (by rw [hcis]; rfl) (by rw [hcos]; rfl), ht, hout]
  simp only [seed_inputs, clone_gates, assign_partitions, calc_substitutions,
    Manager.mk_junior, apply_substitutions]
  rw [← hlen, resize_self]

/-- Witness of C15: id 5 is assigned to no node of the two-input network. -/
theorem partition_empty_noop_witness :
    ((Manager.mk_junior two_input_gate [0, 1, 1, 0] 2).partition 5).1 =
        { inputs := [], outputs := [], gates := [] } ∧
      (Manager.mk_junior two_input_gate [0, 1, 1, 0] 2).integrate 5
        ((Manager.mk_junior two_input_gate [0, 1, 1, 0] 2).partition 5).1 empty_network [] =
        (Outcome.done, Manager.mk_junior two_input_gate [0, 1, 1, 0] 2) :=
  partition_empty_noop two_input_gate [0, 1, 1, 0] 2 5 empty_network [] (by decide)
    (by decide) (by decide) (by decide)
    (by
      intro n
      unfold Network.is_gate empty_network
      match n with
      | 0 => rfl
      | n + 1 => rfl)
    (by decide)

/-- C17 (polarity is applied once): in a call that passes the count assertions, the node
cloned for a gate `g` of the replacement has the function of `g` and, for every fan-in `c`
of `g`, the fan-in `old_to_new` of the node of `c` as it is when `g` is cloned, negated
exactly when `c` is complemented; and every substitution recorded by the call maps the
node of a window output to `old_to_new` of the driver of the matching output of the
replacement, negated exactly when that output is complemented. -/
theorem integrate_polarity (m : Manager) (partition_id : Int) (part : Window)
    (opt : Network) (opt_topo : List Nat)
    (hci : opt.num_cis = part.num_cis) (hco : opt.num_cos = part.num_cos) :
    (∀ pre g post, opt_topo = pre ++ g :: post →
      (clone_gates opt opt_topo m.ntk
          (seed_inputs opt part.inputs 0 (fun _ => none))).1.nodes[m.ntk.size + pre.length]? =
        some (Node.gate (opt.gate_fn g) ((opt.fanin g).map (fun c =>
          ⟨((clone_gates opt pre m.ntk
              (seed_inputs opt part.inputs 0 (fun _ => none))).2.get c.index).index,
           xor ((clone_gates opt pre m.ntk
              (seed_inputs opt part.inputs 0 (fun _ => none))).2.get c.index).complement
             c.complement⟩)))) ∧
    (∀ e ∈ (m.integrate partition_id part opt opt_topo).2.substitutions,
      e ∈ m.substitutions ∨
      ∃ i so, opt.outputs[i]? = some so ∧
        e = (get_node (part.co_at i),
          ⟨((clone_gates opt opt_topo m.ntk
              (seed_inputs opt part.inputs 0 (fun _ => none))).2.get so.index).index,
           xor ((clone_gates opt opt_topo m.ntk
              (seed_inputs opt part.inputs 0 (fun _ => none))).2.get so.index).complement
             so.complement⟩)) := by
  constructor
  · intro pre g post htopo
    rw [htopo, clone_gates_eq, clone_gates_map]
    simp only
    rw [List.getElem?_append_right (by unfold Network.size; omega),
      show m.ntk.size + pre.length - m.ntk.nodes.length = pre.length by
        unfold Network.size; omega,
      clone_nodes_at]
    simp only [Option.some.injEq, Node.gate.injEq, true_and]
    apply List.map_congr_left
    intro c _
    exact resolve_eq _ c
  · intro e he
    rw [integrate_done m partition_id part opt opt_topo hci hco] at he
    rcases mem_calc_substitutions opt part _ e opt.outputs 0 m.substitutions he with
      h | ⟨i, so, hi, _, _, heq⟩
    · exact Or.inl h
    · refine Or.inr ⟨i, so, hi, ?_⟩
      rw [heq, Nat.zero_add, resolve_eq]

/-- Witness of C17: the gate `3 = NAND(1, 2)` of partition 0 has the consumer `4 = f(not 3)`
outside the partition. The replacement is the complemented output of `AND(1, 2)`. The clone
is `AND(1, 2)`, the recorded substitution is complemented once, and the consumer observes
`AND(1, 2)` before and after the call. -/
theorem integrate_polarity_witness :
    (clone_gates complemented_and [3] (Manager.mk_junior nand_consumer [0, 1, 1, 0, 1] 2).ntk
        (seed_inputs complemented_and
          ((Manager.mk_junior nand_consumer [0, 1, 1, 0, 1] 2).partition 0).1.inputs 0
          (fun _ => none))).1.nodes[5]? = some (Node.gate 0 [⟨1, false⟩, ⟨2, false⟩]) ∧
    (∀ e ∈ ((Manager.mk_junior nand_consumer [0, 1, 1, 0, 1] 2).integrate 0
        ((Manager.mk_junior nand_consumer [0, 1, 1, 0, 1] 2).partition 0).1
        complemented_and [3]).2.substitutions,
      e ∈ (Manager.mk_junior nand_consumer [0, 1, 1, 0, 1] 2).substitutions ∨
      ∃ i so, complemented_and.outputs[i]? = some so ∧
        e = (get_node (((Manager.mk_junior nand_consumer [0, 1, 1, 0, 1] 2).partition 0).1.co_at i),
          ⟨((clone_gates complemented_and [3] (Manager.mk_junior nand_consumer [0, 1, 1, 0, 1] 2).ntk
              (seed_inputs complemented_and
                ((Manager.mk_junior nand_consumer [0, 1, 1, 0, 1] 2).partition 0).1.inputs 0
                (fun _ => none))).2.get so.index).index,
           xor ((clone_gates complemented_and [3]
              (Manager.mk_junior nand_consumer [0, 1, 1, 0, 1] 2).ntk
              (seed_inputs complemented_and
                ((Manager.mk_junior nand_consumer [0, 1, 1, 0, 1] 2).partition 0).1.inputs 0
                (fun _ => none))).2.get so.index).complement so.complement⟩)) ∧
    (∀ a b : Bool, nand_consumer.output_value and_or_nand_gates (assign_two a b) 0 =
      some (a && b)) ∧
    (∀ a b : Bool,
      ((Manager.mk_junior nand_consumer [0, 1, 1, 0, 1] 2).integrate 0
        ((Manager.mk_junior nand_consumer [0, 1, 1, 0, 1] 2).partition 0).1
        complemented_and [3]).2.ntk.output_value and_or_nand_gates (assign_two a b) 0 =
          some (a && b)) :=
  ⟨(integrate_polarity (Manager.mk_junior nand_consumer [0, 1, 1, 0, 1] 2) 0
      ((Manager.mk_junior nand_consumer [0, 1, 1, 0, 1] 2).partition 0).1
      complemented_and [3] (by decide) (by decide)).1 [] 3 [] rfl,
   (integrate_polarity (Manager.mk_junior nand_consumer [0, 1, 1, 0, 1] 2) 0
      ((Manager.mk_junior nand_consumer [0, 1, 1, 0, 1] 2).partition 0).1
      complemented_and [3] (by decide) (by decide)).2,
   by decide, by decide⟩

/-- Counterexample to C18 as stated: gate 2 of the replacement has the constant node 0 as a
fan-in. The call passes the assertions; when gate 2 is cloned `old_to_new` has no entry for
node 0, neither has it at the end of the call, so the lookup returns the default signal. -/
theorem integrate_reads_default_for_constant :
    ((Manager.mk_junior constant_fed_gate [0, 0, 0] 1).integrate 0
        ((Manager.mk_junior constant_fed_gate [0, 0, 0] 1).partition 0).1
        constant_fed_gate [2]).1 = Outcome.done ∧
    (⟨0, false⟩ : Signal) ∈ constant_fed_gate.fanin 2 ∧
    constant_fed_gate.is_constant 0 = true ∧
    seed_inputs constant_fed_gate
      ((Manager.mk_junior constant_fed_gate [0, 0, 0] 1).partition 0).1.inputs 0
      (fun _ => none) 0 = none ∧
    (clone_gates constant_fed_gate [2] constant_fed_gate
      (seed_inputs constant_fed_gate
        ((Manager.mk_junior constant_fed_gate [0, 0, 0] 1).partition 0).1.inputs 0
        (fun _ => none))).2 0 = none := by
  decide

/-- C18 amended (`old_to_new` is written before it is read, constants apart): in a call
that passes the count assertions, with a well-formed replacement whose gates come in a
topological order, for every gate `g` and every fan-in of `g` whose node is not a constant
of the replacement, `old_to_new` has an entry for that node when `g` is cloned, and it has
one for the driver of every output that is not a constant; for a constant of the
replacement there is no entry and the lookup returns the default signal, node 0
non-complemented. -/
theorem integrate_reads_written (m : Manager) (partition_id : Int) (part : Window)
    (opt : Network) (opt_topo : List Nat) (hwf : opt.WellFormed)
    (htopo : TopoOrder opt opt_topo)
    (hci : opt.num_cis = part.num_cis) (hco : opt.num_cos = part.num_cos) :
    (m.integrate partition_id part opt opt_topo).1 = Outcome.done ∧
    (∀ pre g post, opt_topo = pre ++ g :: post → ∀ c ∈ opt.fanin g,
      (opt.is_constant c.index = false →
        ∃ s, (clone_gates opt pre m.ntk
          (seed_inputs opt part.inputs 0 (fun _ => none))).2 c.index = some s) ∧
      (opt.is_constant c.index = true →
        (clone_gates opt pre m.ntk
          (seed_inputs opt part.inputs 0 (fun _ => none))).2 c.index = none)) ∧
    (∀ so ∈ opt.outputs,
      (opt.is_constant so.index = false →
        ∃ s, (clone_gates opt opt_topo m.ntk
          (seed_inputs opt part.inputs 0 (fun _ => none))).2 so.index = some s) ∧
      (opt.is_constant so.index = true →
        (clone_gates opt opt_topo m.ntk
          (seed_inputs opt part.inputs 0 (fun _ => none))).2 so.index = none)) := by
  have hlen : opt.cis.length = part.inputs.length := hci
  obtain ⟨hnd, hgates, hord, houts⟩ := htopo
  rw [integrate_done m partition_id part opt opt_topo hci hco]
  refine ⟨rfl, ?_, ?_⟩
  · intro pre g post heq c hc
    have hpre : ∀ g' ∈ pre, opt.is_gate g' = true := by
      intro g' hg'
      apply hgates
      rw [heq]
      exact List.mem_append_left _ hg'
    refine ⟨?_, seeded_constant opt part pre m.ntk hci hpre c.index⟩
    intro hnc
    have hg : opt.is_gate g = true := by
      apply hgates
      rw [heq]
      exact List.mem_append_right _ (List.mem_cons_self _ _)
    have hclt : c.index < opt.size := hwf.2.1 g (is_gate_lt opt g hg) c hc
    rcases node_kind opt c.index hclt with hk | hk | hk
    · rw [hk] at hnc; simp at hnc
    · obtain ⟨i, hi, hcieq⟩ := is_ci_exists_ci_at opt c.index hk
      rw [← hcieq]
      exact ⟨_, (seeded_ci opt part pre m.ntk hci hpre i (by omega)).2⟩
    · have hj : pre.length < opt_topo.length := by
        rw [heq]
        simp
      have hgd : opt_topo.getD pre.length 0 = g := by
        rw [heq, List.getD_eq_getElem?_getD, List.getElem?_append_right (le_refl _)]
        simp
      have htake := hord pre.length hj c (by rw [hgd]; exact hc) hk
      have hpe : opt_topo.take pre.length = pre := by
        rw [heq, List.take_left']
        rfl
      rw [hpe] at htake
      obtain ⟨j, _, hj'⟩ := clone_map_mem_exists pre m.ntk.size
        (seed_inputs opt part.inputs 0 (fun _ => none)) c.index htake
      exact ⟨_, by rw [clone_gates_map]; exact hj'⟩
  · intro so hso
    refine ⟨?_, seeded_constant opt part opt_topo m.ntk hci hgates so.index⟩
    intro hnc
    have hlt : so.index < opt.size := hwf.2.2 so hso
    rcases node_kind opt so.index hlt with hk | hk | hk
    · rw [hk] at hnc; simp at hnc
    · obtain ⟨i, hi, hcieq⟩ := is_ci_exists_ci_at opt so.index hk
      rw [← hcieq]
      exact ⟨_, (seeded_ci opt part opt_topo m.ntk hci hgates i (by omega)).2⟩
    · obtain ⟨j, _, hj'⟩ := clone_map_mem_exists opt_topo m.ntk.size
        (seed_inputs opt part.inputs 0 (fun _ => none)) so.index (houts so hso hk)
      exact ⟨_, by rw [clone_gates_map]; exact hj'⟩

/-- Witness of C18 amended: the entry of input 1 is written when gate 2 is cloned, and the
entry of gate 2 when the output is read. -/
theorem integrate_reads_written_witness :
    (∃ s, (clone_gates constant_fed_gate [] constant_fed_gate
        (seed_inputs constant_fed_gate
          ((Manager.mk_junior constant_fed_gate [0, 0, 0] 1).partition 0).1.inputs 0
          (fun _ => none))).2 1 = some s) ∧
    (∃ s, (clone_gates constant_fed_gate [2] constant_fed_gate
        (seed_inputs constant_fed_gate
          ((Manager.mk_junior constant_fed_gate [0, 0, 0] 1).partition 0).1.inputs 0
          (fun _ => none))).2 2 = some s) :=
  ⟨((integrate_reads_written (Manager.mk_junior constant_fed_gate [0, 0, 0] 1) 0
      ((Manager.mk_junior constant_fed_gate [0, 0, 0] 1).partition 0).1 constant_fed_gate [2]
      (by unfold Network.WellFormed; decide) (by unfold TopoOrder; decide)
      (by decide) (by decide)).2.1 [] 2 [] rfl ⟨1, false⟩ (by decide)).1 (by decide),
   ((integrate_reads_written (Manager.mk_junior constant_fed_gate [0, 0, 0] 1) 0
      ((Manager.mk_junior constant_fed_gate [0, 0, 0] 1).partition 0).1 constant_fed_gate [2]
      (by unfold Network.WellFormed; decide) (by unfold TopoOrder; decide)
      (by decide) (by decide)).2.2 ⟨2, false⟩ (by decide)).1 (by decide)⟩

/-- C19 (one non-complemented output per node): every signal in the outputs of
`partition(id)` is non-complemented, no two entries have the same node, and two different
output positions give different substitution keys. -/
theorem partition_one_output_per_node (m : Manager) (id : Int) :
    (∀ s ∈ (m.partition id).1.outputs, s.complement = false) ∧
      ((m.partition id).1.outputs.map get_node).Nodup ∧
      (∀ i j, i < j → j < (m.partition id).1.outputs.length →
        get_node ((m.partition id).1.co_at i) ≠ get_node ((m.partition id).1.co_at j)) := by
  have hinc := partition_outputs_index_increasing m id
  refine ⟨fun s hs => ((mem_partition_outputs m id s).1 hs).1, ?_, ?_⟩
  · exact hinc.imp (fun h => Nat.ne_of_lt h)
  · intro i j hij hj
    have hi : i < (m.partition id).1.outputs.length := by omega
    unfold Window.co_at
    rw [List.getD_eq_getElem _ _ hi, List.getD_eq_getElem _ _ hj]
    have := List.pairwise_iff_getElem.1 hinc i j (by simpa using hi) (by simpa using hj) hij
    simp only [List.getElem_map] at this
    omega

/-- C20 (the window is closed on its own lists): the node of every signal in the outputs of
`partition(id)` is in the gates or in the inputs, no input is a gate, and the gates hold no
node twice. -/
theorem partition_window_closed (m : Manager) (id : Int) :
    (∀ s ∈ (m.partition id).1.outputs,
      get_node s ∈ (m.partition id).1.gates ∨ get_node s ∈ (m.partition id).1.inputs) ∧
      (∀ n, n ∈ (m.partition id).1.inputs → n ∉ (m.partition id).1.gates) ∧
      (m.partition id).1.gates.Nodup := by
  refine ⟨?_, ?_, partition_gates_nodup m id⟩
  · intro s hs
    obtain ⟨_, hlt, hp, hc, _⟩ := (mem_partition_outputs m id s).1 hs
    by_cases hci : m.ntk.is_ci s.index = true
    · exact Or.inr ((mem_partition_inputs m id _).2 (Or.inl ⟨hci, hp⟩))
    · exact Or.inl ((mem_partition_gates m id _).2 ⟨hlt, hp, hc, by simpa using hci⟩)
  · intro n hin hg
    obtain ⟨_, hp, _, hci⟩ := (mem_partition_gates m id n).1 hg
    rcases (mem_partition_inputs m id n).1 hin with ⟨h1, _⟩ | ⟨_, h2, _⟩
    · rw [h1] at hci; simp at hci
    · exact h2 hp

end Oracle
